import Mathlib

/-!
# Verification of the order allocation engine

Shallow embedding of `app/services/allocation_engines/{base,pro_rata,
custom_weights,minimum_dispersion}.py`.  Numeric values (Python floats)
are modelled as exact rationals `ℚ`; `np.floor(q / L) * L` becomes
`⌊q / L⌋ * L`.  Python dicts keyed by account id are modelled as
insertion-ordered association lists with update-in-place semantics.
Nondeterministic result fields (uuid allocation ids, timestamps) and the
free-form `metadata` dicts are omitted, except for the
`optimization_success` metadata entry of the minimum-dispersion engine,
which is kept as an explicit field.  The SciPy SLSQP call inside
`_optimize_allocation` is external numerical code; the engine is
modelled as a function of the solver outcome (an `OptimizationResult`),
and the deterministic fallback on solver failure is translated exactly.
-/

namespace AllocEngine

/-- Account data for allocation (`base.Account`).  `customMetric` models
`metadata.get ("custom_metric", nav)`: `none` when the key is absent. -/
structure Account where
  accountId : String
  accountName : String
  nav : ℚ
  availableCash : ℚ
  currentPosition : ℚ
  activeSpreadDuration : ℚ
  portfolioDuration : ℚ
  spreadDuration : ℚ
  oas : ℚ
  customMetric : Option ℚ := none
  deriving Repr, DecidableEq

/-- Security data for allocation (`base.Security`); fields not read by the
engines (ticker, description, coupon, maturity) are omitted. -/
structure Security where
  cusip : String
  price : ℚ
  duration : ℚ
  spreadDuration : ℚ
  oas : ℚ
  minDenomination : ℚ
  deriving Repr, DecidableEq

/-- Order details (`base.Order`).  `side` is the raw string compared
against "BUY" / "SELL"; `price` is the optional override. -/
structure Order where
  securityId : String
  side : String
  quantity : ℚ
  price : Option ℚ := none
  deriving Repr, DecidableEq

/-- Allocation constraints (`base.AllocationConstraints`). -/
structure AllocationConstraints where
  respectCash : Bool := true
  minAllocation : ℚ := 1000
  complianceCheck : Bool := true
  roundToDenomination : Bool := true
  maxConcentration : Option ℚ := none
  deriving Repr, DecidableEq

/-- Warning kinds (`base.AllocationWarningType`). -/
inductive WarningType where
  | insufficientCash
  | minLotSize
  | compliance
  | rounding
  deriving Repr, DecidableEq

/-- A warning record (`base.AllocationWarning`); the human message is
dropped, the kind and account id are kept. -/
structure AllocationWarning where
  type : WarningType
  accountId : Option String
  deriving Repr, DecidableEq

/-- Error codes of `base.validate_inputs` and
`custom_weights._validate_weights`. -/
inductive ErrorCode where
  | noAccounts
  | invalidQuantity
  | invalidPrice
  | invalidMinAllocation
  | noWeights
  | invalidWeightSum
  | negativeWeight
  | weightExceedsOne
  deriving Repr, DecidableEq

/-- An error record (`base.AllocationError`); the message and details are
dropped, the code is kept. -/
structure AllocationError where
  code : ErrorCode
  deriving Repr, DecidableEq

/-- Pre/post trade metrics (`base.TradeMetrics`). -/
structure TradeMetrics where
  activeSpreadDuration : ℚ
  contributionToDuration : ℚ
  duration : ℚ
  oas : ℚ
  spreadDuration : ℚ
  deriving Repr, DecidableEq

/-- Per-account allocation record (`base.AccountAllocationResult`). -/
structure AccountAllocationResult where
  accountId : String
  accountName : String
  allocatedQuantity : ℚ
  allocatedNotional : ℚ
  availableCash : ℚ
  postTradeCash : ℚ
  preTradeMetrics : TradeMetrics
  postTradeMetrics : TradeMetrics
  cashUsed : ℚ := 0
  deriving Repr, DecidableEq

/-- Allocation summary (`base.AllocationSummary`).  The optional
`dispersion_metrics` field involves floating-point standard deviations
(square roots) and is outside the rational model; no claim reads it. -/
structure AllocationSummary where
  totalAllocated : ℚ
  unallocated : ℚ
  allocationRate : ℚ
  accountsAllocated : Int
  accountsSkipped : Int
  deriving Repr, DecidableEq

/-- Complete allocation result (`base.AllocationResult`).  The uuid and
timestamp are nondeterministic and omitted.  `optimizationSuccess`
models `metadata["optimization_success"]` of the minimum-dispersion
engine (`none` for the other engines, whose metadata has no such key). -/
structure AllocationResult where
  order : Order
  allocations : List AccountAllocationResult
  summary : AllocationSummary
  warnings : List AllocationWarning := []
  errors : List AllocationError := []
  optimizationSuccess : Option Bool := none
  deriving Repr, DecidableEq

/-! ## Association lists with Python-dict semantics -/

/-- Lookup in an insertion-ordered association list (first match, as in a
Python dict, whose keys are unique by construction). -/
def alistGet : List (String × ℚ) → String → Option ℚ
  | [], _ => none
  | p :: m, k => if p.1 = k then some p.2 else alistGet m k

/-- `d[k] = v` on a Python dict: update the existing entry in place,
else append at the end (insertion order preserved). -/
def alistSet (m : List (String × ℚ)) (k : String) (v : ℚ) : List (String × ℚ) :=
  match m with
  | [] => [(k, v)]
  | p :: rest => if p.1 = k then (k, v) :: rest else p :: alistSet rest k v

/-- `sum (d.values ())`. -/
def alistSum (m : List (String × ℚ)) : ℚ :=
  (m.map Prod.snd).sum

/-- `k in d`. -/
def alistMem (m : List (String × ℚ)) (k : String) : Bool :=
  (alistGet m k).isSome

/-- Remove every entry with key `k` (on key-distinct lists: remove the
entry for `k`).  Used only in proofs, to peel maps apart. -/
def alistRemove : List (String × ℚ) → String → List (String × ℚ)
  | [], _ => []
  | p :: m, k => if p.1 = k then alistRemove m k else p :: alistRemove m k

/-- `q` is an integer multiple of the lot size `L`. -/
def isLotMultiple (q L : ℚ) : Prop :=
  ∃ k : ℤ, q = k * L

/-! ## Shared helpers from `base.AllocationEngine` -/

/-- `round_to_denomination`: `np.floor (quantity / min_denomination) *
min_denomination`. -/
def roundToDenom (quantity minDenomination : ℚ) : ℚ :=
  ⌊quantity / minDenomination⌋ * minDenomination

/-- `order.price or security.price`: Python `or` falls through on a zero
(falsy) override as well as on `None`. -/
def effectivePrice (order : Order) (security : Security) : ℚ :=
  match order.price with
  | none => security.price
  | some p => if p = 0 then security.price else p

/-- `validate_inputs`: the four entry checks, in source order, collected
by list append. -/
def validateInputs (order : Order) (security : Security)
    (accounts : List Account) (constraints : AllocationConstraints) :
    List AllocationError :=
  (if accounts = [] then [⟨.noAccounts⟩] else []) ++
  (if order.quantity ≤ 0 then [⟨.invalidQuantity⟩] else []) ++
  (if security.price ≤ 0 then [⟨.invalidPrice⟩] else []) ++
  (if constraints.minAllocation < security.minDenomination then
    [⟨.invalidMinAllocation⟩] else [])

/-- `calculate_pre_trade_metrics`. -/
def calculatePreTradeMetrics (account : Account) (_security : Security) :
    TradeMetrics where
  activeSpreadDuration := account.activeSpreadDuration
  contributionToDuration := account.portfolioDuration * (account.nav / 1000000)
  duration := account.portfolioDuration
  oas := account.oas
  spreadDuration := account.spreadDuration

/-- `calculate_post_trade_metrics`.  In ℚ, `x / 0 = 0`; every division
below is guarded exactly as in the source (`new_position > 0`,
`current_position > 0`, `nav > 0`), so no division by zero is reachable
on the guarded paths. -/
def calculatePostTradeMetrics (account : Account) (security : Security)
    (allocatedQuantity : ℚ) (side : String) : TradeMetrics :=
  let positionChange := if side = "BUY" then allocatedQuantity else -allocatedQuantity
  let newPosition := account.currentPosition + positionChange
  let newSpreadDuration :=
    if newPosition > 0 then
      let oldWeight :=
        if account.currentPosition > 0 then
          account.currentPosition / (account.currentPosition + positionChange)
        else 0
      let newWeight := positionChange / (account.currentPosition + positionChange)
      account.spreadDuration * oldWeight + security.spreadDuration * newWeight
    else account.spreadDuration
  let positionValue := newPosition * security.price
  let newAsd :=
    if account.nav > 0 then (positionValue / account.nav) * newSpreadDuration else 0
  { activeSpreadDuration := newAsd
    contributionToDuration := account.portfolioDuration * (account.nav / 1000000)
    duration := account.portfolioDuration
    oas := security.oas
    spreadDuration := newSpreadDuration }

/-- `create_allocation_warnings`: per account, an `INSUFFICIENT_CASH`
warning when the id is absent from the allocations dict, `respect_cash`
is set and cash is below `min_allocation * security.price` (note: the
security price, not the effective order price, and no condition on the
order side); a `MIN_LOT_SIZE` warning when `0 < allocated <
min_allocation`. -/
def createAllocationWarnings (accounts : List Account)
    (allocations : List (String × ℚ)) (security : Security)
    (constraints : AllocationConstraints) : List AllocationWarning :=
  accounts.flatMap (fun account =>
    let allocated := (alistGet allocations account.accountId).getD 0
    (if ¬ alistMem allocations account.accountId ∧ constraints.respectCash ∧
        account.availableCash < constraints.minAllocation * security.price then
      [⟨.insufficientCash, some account.accountId⟩] else []) ++
    (if 0 < allocated ∧ allocated < constraints.minAllocation then
      [⟨.minLotSize, some account.accountId⟩] else []))

/-- `_create_account_allocation`: identical in all three engines. -/
def createAccountAllocation (account : Account) (allocatedQuantity : ℚ)
    (security : Security) (order : Order) : AccountAllocationResult :=
  let price := effectivePrice order security
  let allocatedNotional := allocatedQuantity * price
  let cashUsed := if order.side = "BUY" then allocatedNotional else 0
  { accountId := account.accountId
    accountName := account.accountName
    allocatedQuantity := allocatedQuantity
    allocatedNotional := allocatedNotional
    availableCash := account.availableCash
    postTradeCash := account.availableCash - cashUsed
    preTradeMetrics := calculatePreTradeMetrics account security
    postTradeMetrics := calculatePostTradeMetrics account security allocatedQuantity order.side
    cashUsed := cashUsed }

/-- The error result built by `pro_rata.allocate` on validation failure
and by `_create_error_result` in the other two engines. -/
def errorResult (order : Order) (accounts : List Account)
    (errors : List AllocationError) : AllocationResult where
  order := order
  allocations := []
  summary :=
    { totalAllocated := 0
      unallocated := order.quantity
      allocationRate := 0
      accountsAllocated := 0
      accountsSkipped := accounts.length }
  errors := errors

/-! ## Pro-rata engine (`pro_rata.ProRataAllocationEngine`) -/

/-- The per-account size value of `_calculate_weights`: NAV for "NAV",
"MARKET_VALUE" and any unrecognised metric; for "CUSTOM" the account's
`custom_metric` metadata entry, defaulting to NAV. -/
def metricValue (baseMetric : String) (account : Account) : ℚ :=
  if baseMetric = "CUSTOM" then account.customMetric.getD account.nav
  else account.nav

/-- `_calculate_weights` for one account: its size value over the total,
zero when the total is zero. -/
def proRataWeight (baseMetric : String) (accounts : List Account)
    (account : Account) : ℚ :=
  let total := (accounts.map (metricValue baseMetric)).sum
  if total = 0 then 0 else metricValue baseMetric account / total

/-- The BUY-cash / SELL-position block shared verbatim by
`pro_rata._apply_constraints` and `custom_weights._apply_constraints`
(the two files contain the same code for it, warnings aside).  `none`
models the `return 0` exits of the cash branch. -/
def applySideConstraints (account : Account) (security : Security)
    (order : Order) (constraints : AllocationConstraints) (a0 : ℚ) : Option ℚ :=
  if order.side = "BUY" ∧ constraints.respectCash then
    let price := effectivePrice order security
    if a0 * price > account.availableCash then
      let affordable :=
        roundToDenom (account.availableCash / price) security.minDenomination
      if affordable < constraints.minAllocation then none else some affordable
    else some a0
  else if order.side = "SELL" then
    if a0 > account.currentPosition then
      some (roundToDenom account.currentPosition security.minDenomination)
    else some a0
  else some a0

/-- The concentration-limit block of `pro_rata._apply_constraints`
(absent from the custom-weights engine).  Python truthiness: a zero
`max_concentration` is treated as unset. -/
def proRataConcStep (account : Account) (security : Security) (order : Order)
    (constraints : AllocationConstraints) (a1 : ℚ) : ℚ :=
  match constraints.maxConcentration with
  | some mc =>
    if mc = 0 then a1
    else
      let price := effectivePrice order security
      let concentration :=
        if account.nav > 0 then a1 * price / account.nav else 0
      if concentration > mc then
        roundToDenom (account.nav * mc / price) security.minDenomination
      else a1
  | none => a1

/-- `pro_rata._apply_constraints`, a pure function of its inputs (the
source's `warnings` parameter is never appended to in this engine):
round to denomination, zero below `min_allocation`, side constraints,
concentration limit. -/
def proRataApplyConstraints (account : Account) (targetQuantity : ℚ)
    (security : Security) (order : Order)
    (constraints : AllocationConstraints) : ℚ :=
  let a0 :=
    if constraints.roundToDenomination then
      roundToDenom targetQuantity security.minDenomination
    else targetQuantity
  if a0 < constraints.minAllocation then 0
  else
    match applySideConstraints account security order constraints a0 with
    | none => 0
    | some a1 => proRataConcStep account security order constraints a1

/-- Stable insertion step for descending NAV: an element inserted later
(i.e. earlier in the original list) goes before entries of equal NAV,
matching Python's stable `sorted (key = nav, reverse = True)`. -/
def insertNavDesc (a : Account) : List Account → List Account
  | [] => [a]
  | b :: bs => if b.nav ≤ a.nav then a :: b :: bs else b :: insertNavDesc a bs

/-- `sorted (accounts, key = nav, reverse = True)` (stable). -/
def sortNavDesc (accounts : List Account) : List Account :=
  accounts.foldr insertNavDesc []

/-- Loop body of `pro_rata._distribute_remainder`: add one denomination
to the account's entry when the remainder still holds one and,
`respect_cash` being set, the new allocation times the *security* price
(the order price override is not consulted here) fits in cash.  With
`respect_cash` unset nothing is ever added.  The position of a SELL
order is not consulted. -/
def remainderStep (security : Security) (constraints : AllocationConstraints)
    (st : List (String × ℚ) × ℚ) (account : Account) : List (String × ℚ) × ℚ :=
  let minDenom := security.minDenomination
  if st.2 < minDenom then st
  else
    let currentAlloc := (alistGet st.1 account.accountId).getD 0
    let newAlloc := currentAlloc + minDenom
    if constraints.respectCash then
      if newAlloc * security.price ≤ account.availableCash then
        (alistSet st.1 account.accountId newAlloc, st.2 - minDenom)
      else st
    else st

/-- `pro_rata._distribute_remainder`: one pass of `remainderStep` over
the allocated accounts in descending NAV order (the early `break` is
the no-op branch of the step). -/
def distributeRemainder (remainder : ℚ) (allocations : List (String × ℚ))
    (accounts : List Account) (security : Security)
    (constraints : AllocationConstraints) : List (String × ℚ) :=
  if remainder < security.minDenomination then allocations
  else
    let sortedAccounts :=
      sortNavDesc (accounts.filter (fun a => alistMem allocations a.accountId))
    (sortedAccounts.foldl (remainderStep security constraints)
      (allocations, remainder)).1

/-- One iteration of the allocation loop of `pro_rata.allocate`: skip
zero weights, project the target through the constraints, record
positive results. -/
def proRataMainStep (order : Order) (security : Security)
    (accounts : List Account) (baseMetric : String)
    (constraints : AllocationConstraints)
    (st : List (String × ℚ) × ℚ) (account : Account) : List (String × ℚ) × ℚ :=
  let weight := proRataWeight baseMetric accounts account
  if weight = 0 then st
  else
    let targetQuantity := order.quantity * weight
    let allocatedQuantity :=
      proRataApplyConstraints account targetQuantity security order constraints
    if allocatedQuantity > 0 then
      (alistSet st.1 account.accountId allocatedQuantity, st.2 + allocatedQuantity)
    else st

/-- The allocation loop of `pro_rata.allocate`: builds the allocations
dict and the running `total_allocated` (which double-counts duplicate
account ids exactly as the source does). -/
def proRataMainPass (order : Order) (security : Security)
    (accounts : List Account) (baseMetric : String)
    (constraints : AllocationConstraints) : List (String × ℚ) × ℚ :=
  accounts.foldl (proRataMainStep order security accounts baseMetric constraints)
    ([], 0)

/-- The final allocations dict and total of `pro_rata.allocate`: the main
pass, then remainder distribution (with the total recomputed from the
dict) when the total fell short of the order quantity. -/
def proRataAllocations (order : Order) (security : Security)
    (accounts : List Account) (baseMetric : String)
    (constraints : AllocationConstraints) : List (String × ℚ) × ℚ :=
  let mp := proRataMainPass order security accounts baseMetric constraints
  if mp.2 < order.quantity then
    let m' := distributeRemainder (order.quantity - mp.2) mp.1 accounts security constraints
    (m', alistSum m')
  else mp

/-- `pro_rata.allocate`. -/
def proRataAllocate (order : Order) (security : Security)
    (accounts : List Account) (baseMetric : String)
    (constraints : AllocationConstraints) : AllocationResult :=
  let errors := validateInputs order security accounts constraints
  if errors ≠ [] then errorResult order accounts errors
  else
    let ap := proRataAllocations order security accounts baseMetric constraints
    let allocations := ap.1
    let totalAllocated := ap.2
    let allocationResults :=
      (accounts.filter (fun a => alistMem allocations a.accountId)).map
        (fun account =>
          createAccountAllocation account
            ((alistGet allocations account.accountId).getD 0) security order)
    let warnings := createAllocationWarnings accounts allocations security constraints
    { order := order
      allocations := allocationResults
      summary :=
        { totalAllocated := totalAllocated
          unallocated := order.quantity - totalAllocated
          allocationRate :=
            if order.quantity > 0 then totalAllocated / order.quantity else 0
          accountsAllocated := allocationResults.length
          accountsSkipped := accounts.length - allocationResults.length }
      warnings := warnings
      errors := [] }

/-! ## Custom-weights engine (`custom_weights.CustomWeightsAllocationEngine`)

The weights parameter is a Python dict, modelled as an insertion-ordered
association list; theorems about dict-shaped inputs may assume its keys
are distinct. -/

/-- `custom_weights._validate_weights`: `NO_WEIGHTS` alone for an empty
dict; otherwise the sum check (tolerance `0.001`) followed by one error
per negative or above-one weight, in iteration order. -/
def validateWeights (weights : List (String × ℚ)) : List AllocationError :=
  if weights = [] then [⟨.noWeights⟩]
  else
    (if |alistSum weights - 1| > 1/1000 then [⟨.invalidWeightSum⟩] else []) ++
    weights.flatMap (fun p =>
      if p.2 < 0 then [⟨.negativeWeight⟩]
      else if p.2 > 1 then [⟨.weightExceedsOne⟩]
      else [])

/-- `account_lookup [account_id]` built by dict comprehension: on
duplicate ids the later account wins. -/
def lookupAccount (accounts : List Account) (accountId : String) : Option Account :=
  accounts.foldl (fun r a => if a.accountId = accountId then some a else r) none

/-- `custom_weights._apply_constraints`, quantity component.  It is the
pro-rata projection without the concentration block; the warnings it
appends do not affect the returned quantity and no claim reads them
(they are additionally unreachable at runtime: the source file never
imports `AllocationWarningType`, so every warning-appending line of this
function raises `NameError`). -/
def customApplyConstraints (account : Account) (targetQuantity : ℚ)
    (security : Security) (order : Order)
    (constraints : AllocationConstraints) : ℚ :=
  let a0 :=
    if constraints.roundToDenomination then
      roundToDenom targetQuantity security.minDenomination
    else targetQuantity
  if a0 < constraints.minAllocation then 0
  else
    match applySideConstraints account security order constraints a0 with
    | none => 0
    | some a1 => a1

/-- One iteration of the first pass of `custom_weights.allocate`: skip
unknown accounts, project `quantity * weight` through the constraints,
record positive results. -/
def customMainStep (order : Order) (security : Security)
    (accounts : List Account) (constraints : AllocationConstraints)
    (st : List (String × ℚ) × ℚ) (p : String × ℚ) : List (String × ℚ) × ℚ :=
  match lookupAccount accounts p.1 with
  | none => st
  | some account =>
    let targetQuantity := order.quantity * p.2
    let allocatedQuantity :=
      customApplyConstraints account targetQuantity security order constraints
    if allocatedQuantity > 0 then
      (alistSet st.1 p.1 allocatedQuantity, st.2 + allocatedQuantity)
    else st

/-- First pass of `custom_weights.allocate`: iterate the weights dict
(running total kept as in the source). -/
def customMainPass (order : Order) (security : Security)
    (accounts : List Account) (weights : List (String × ℚ))
    (constraints : AllocationConstraints) : List (String × ℚ) × ℚ :=
  weights.foldl (customMainStep order security accounts constraints) ([], 0)

/-- Loop body of `custom_weights._handle_unallocated`, over one snapshot
entry `p` of the allocations dict.  `totalAllocated` is the proportion
denominator fixed at loop entry.  A dict key always resolves in
`account_lookup`; the unreachable `none` case yields 0 cash/position
via `Option.elim`. -/
def unallocStep (order : Order) (security : Security)
    (accounts : List Account) (constraints : AllocationConstraints)
    (totalAllocated : ℚ)
    (st : List (String × ℚ) × ℚ) (p : String × ℚ) : List (String × ℚ) × ℚ :=
  if st.2 < security.minDenomination then st
  else
    let currentAllocation := p.2
    let proportion :=
      if totalAllocated > 0 then currentAllocation / totalAllocated else 0
    let additional := st.2 * proportion
    let additionalRounded := roundToDenom additional security.minDenomination
    if additionalRounded ≥ security.minDenomination then
      let newTotal := currentAllocation + additionalRounded
      if order.side = "BUY" ∧ constraints.respectCash then
        let price := effectivePrice order security
        if newTotal * price ≤ (lookupAccount accounts p.1).elim 0 Account.availableCash then
          (alistSet st.1 p.1 newTotal, st.2 - additionalRounded)
        else st
      else if order.side = "SELL" then
        if newTotal ≤ (lookupAccount accounts p.1).elim 0 Account.currentPosition then
          (alistSet st.1 p.1 newTotal, st.2 - additionalRounded)
        else st
      else st
    else st

/-- `custom_weights._handle_unallocated`: iterate a snapshot of the
allocations dict via `unallocStep`; each entry may receive
`unallocated * share` rounded down to the denomination, provided at
least one denomination results and the side-specific feasibility check
passes.  The proportion denominator is the total at entry (not updated
inside the loop), as in the source. -/
def handleUnallocated (unallocated : ℚ) (allocations : List (String × ℚ))
    (accounts : List Account) (security : Security) (order : Order)
    (constraints : AllocationConstraints) : List (String × ℚ) :=
  if unallocated < security.minDenomination ∨ allocations = [] then allocations
  else
    let totalAllocated := alistSum allocations
    (allocations.foldl
      (unallocStep order security accounts constraints totalAllocated)
      (allocations, unallocated)).1

/-- The final allocations dict and total of `custom_weights.allocate`. -/
def customAllocations (order : Order) (security : Security)
    (accounts : List Account) (weights : List (String × ℚ))
    (constraints : AllocationConstraints) : List (String × ℚ) × ℚ :=
  let mp := customMainPass order security accounts weights constraints
  if mp.2 < order.quantity then
    let m' := handleUnallocated (order.quantity - mp.2) mp.1 accounts security order constraints
    (m', alistSum m')
  else mp

/-- `custom_weights.allocate`.  The result rows are built directly from
the allocations dict (`for account_id, allocated_qty in
allocations.items ()`); a dict key always resolves in `account_lookup`,
so the `none` branch of the lookup is unreachable and mapped to a
zero-quantity row for totality. -/
def customWeightsAllocate (order : Order) (security : Security)
    (accounts : List Account) (weights : List (String × ℚ))
    (constraints : AllocationConstraints) : AllocationResult :=
  let errors := validateInputs order security accounts constraints
  if errors ≠ [] then errorResult order accounts errors
  else
    let weightErrors := validateWeights weights
    if weightErrors ≠ [] then errorResult order accounts weightErrors
    else
      let ap := customAllocations order security accounts weights constraints
      let allocations := ap.1
      let totalAllocated := ap.2
      let allocationResults :=
        allocations.map (fun p =>
          match lookupAccount accounts p.1 with
          | some account => createAccountAllocation account p.2 security order
          | none => createAccountAllocation
              ⟨p.1, "", 0, 0, 0, 0, 0, 0, 0, none⟩ 0 security order)
      let positiveWeights := (weights.filter (fun p => p.2 > 0)).length
      { order := order
        allocations := allocationResults
        summary :=
          { totalAllocated := totalAllocated
            unallocated := order.quantity - totalAllocated
            allocationRate :=
              if order.quantity > 0 then totalAllocated / order.quantity else 0
            accountsAllocated := allocationResults.length
            accountsSkipped := (positiveWeights : Int) - allocationResults.length }
        warnings := weights.flatMap (fun p =>
          if p.2 > 0 ∧ ¬ alistMem allocations p.1 then
            match lookupAccount accounts p.1 with
            | some account => createAllocationWarnings [account] [] security constraints
            | none => []
          else [])
        errors := [] }

/-! ## Minimum-dispersion engine
(`minimum_dispersion.MinimumDispersionAllocationEngine`)

`_optimize_allocation` wraps a SciPy SLSQP call — external
floating-point numerics.  The engine is therefore modelled as a function
of the solver outcome: an `OptimizationResult` (solution vector plus
success flag) supplied as a parameter.  Everything downstream of the
solver — the fallback, rounding, final constraint filter and result
assembly — is translated from the source. -/

/-- `minimum_dispersion.OptimizationResult` (message, iteration count and
objective value dropped). -/
structure OptimizationResult where
  allocations : List ℚ
  success : Bool
  deriving Repr, DecidableEq

/-- `_fallback_prorata`: the pro-rata-by-NAV vector (zeros when total NAV
is not positive) — returned with `success := true`, which is what the
caller later records as `optimization_success`. -/
def fallbackProrata (order : Order) (accounts : List Account) : OptimizationResult :=
  let totalNav := (accounts.map Account.nav).sum
  let xs :=
    if totalNav > 0 then
      accounts.map (fun a => order.quantity * (a.nav / totalNav))
    else List.replicate accounts.length 0
  { allocations := xs, success := true }

/-- `rounded[idx] += min_denomination` on the vector. -/
def bumpAt (r : List ℚ) (idx : Nat) (minDenom : ℚ) : List ℚ :=
  r.set idx (r.getD idx 0 + minDenom)

/-- One `for idx in sorted_indices` pass of `_round_allocations`: each
index receives one denomination while the remainder holds one. -/
def distPass (sortedIdx : List Nat) (minDenom : ℚ) (st : List ℚ × ℚ) :
    List ℚ × ℚ :=
  sortedIdx.foldl
    (fun (st : List ℚ × ℚ) idx =>
      let (r, rem) := st
      if rem ≥ minDenom then (bumpAt r idx minDenom, rem - minDenom)
      else (r, rem))
    st

/-- The `while remainder >= min_denomination` loop of
`_round_allocations`, fuelled: each pass over a nonempty index list with
a positive denomination removes at least one denomination from the
remainder, so the fuel chosen by `roundAllocations` always suffices
there (the source loop diverges on an empty account list, which input
validation excludes). -/
def distLoop : Nat → List Nat → ℚ → List ℚ → ℚ → List ℚ
  | 0, _, _, r, _ => r
  | fuel + 1, sortedIdx, minDenom, r, rem =>
    if rem ≥ minDenom then
      let st := distPass sortedIdx minDenom (r, rem)
      distLoop fuel sortedIdx minDenom st.1 st.2
    else r

/-- Stable insertion step for descending fractional part.  NumPy's
`argsort` (default quicksort) leaves the order of equal fractional parts
unspecified; this fixes the stable descending refinement.  No theorem
below depends on the tie order. -/
def insertFracDesc (p : Nat × ℚ) : List (Nat × ℚ) → List (Nat × ℚ)
  | [] => [p]
  | q :: qs => if q.2 ≤ p.2 then p :: q :: qs else q :: insertFracDesc p qs

/-- `np.argsort (fractional_parts) [::-1]` as a stable descending sort of
the index list. -/
def argsortFracDesc (fracs : List ℚ) : List Nat :=
  (((List.range fracs.length).zip fracs).foldr insertFracDesc []).map Prod.fst

/-- `_round_allocations`: floor every entry to the denomination, then
while the gap to `total_quantity` holds at least one denomination, hand
out denominations cycling over the indices in descending
fractional-part order. -/
def roundAllocations (allocations : List ℚ) (minDenomination totalQuantity : ℚ) :
    List ℚ :=
  let rounded := allocations.map (fun x => roundToDenom x minDenomination)
  let remainder := totalQuantity - rounded.sum
  if remainder ≥ minDenomination then
    let fracs := allocations.zipWith (fun x r => x - r) rounded
    let sortedIdx := argsortFracDesc fracs
    distLoop (Int.toNat ⌊remainder / minDenomination⌋ + 1) sortedIdx
      minDenomination rounded remainder
  else rounded

/-- `_apply_final_constraints`: drop to zero any rounded allocation that
violates cash (BUY with `respect_cash`, at the effective price) or
position (SELL); otherwise keep it.  Appends no warnings. -/
def applyFinalConstraints (account : Account) (allocatedQuantity : ℚ)
    (security : Security) (order : Order)
    (constraints : AllocationConstraints) : ℚ :=
  if order.side = "BUY" ∧ constraints.respectCash then
    if allocatedQuantity * effectivePrice order security > account.availableCash then 0
    else allocatedQuantity
  else if order.side = "SELL" then
    if allocatedQuantity > account.currentPosition then 0
    else allocatedQuantity
  else allocatedQuantity

/-- Per-entry body of the allocations loop of
`minimum_dispersion.allocate`: keep entries at or above
`min_allocation` whose final constraint check stays positive. -/
def minDispMapStep (order : Order) (security : Security)
    (constraints : AllocationConstraints)
    (m : List (String × ℚ)) (aq : Account × ℚ) : List (String × ℚ) :=
  if aq.2 ≥ constraints.minAllocation then
    let finalQ := applyFinalConstraints aq.1 aq.2 security order constraints
    if finalQ > 0 then alistSet m aq.1.accountId finalQ else m
  else m

/-- The allocations dict of `minimum_dispersion.allocate`: zip accounts
with the rounded vector and fold `minDispMapStep`. -/
def minDispAllocationsMap (order : Order) (security : Security)
    (accounts : List Account) (constraints : AllocationConstraints)
    (rounded : List ℚ) : List (String × ℚ) :=
  (accounts.zip rounded).foldl (minDispMapStep order security constraints) []

/-- The `if not optimization_result.success` step of
`minimum_dispersion.allocate`: a failed solver outcome is replaced by
the fallback pro-rata outcome (whose `success` flag is `true`). -/
def resolveSolver (order : Order) (accounts : List Account)
    (opt : OptimizationResult) : OptimizationResult :=
  if opt.success then opt else fallbackProrata order accounts

/-- `minimum_dispersion.allocate`, as a function of the solver outcome
`opt`.  On solver failure the fallback pro-rata-by-NAV outcome (with its
`success := true` flag) replaces `opt` before rounding, and that flag is
what the metadata records. -/
def minDispAllocate (order : Order) (security : Security)
    (accounts : List Account) (constraints : AllocationConstraints)
    (opt : OptimizationResult) : AllocationResult :=
  let errors := validateInputs order security accounts constraints
  if errors ≠ [] then errorResult order accounts errors
  else
    let optR := resolveSolver order accounts opt
    let rounded := roundAllocations optR.allocations security.minDenomination order.quantity
    let allocations := minDispAllocationsMap order security accounts constraints rounded
    let allocationResults :=
      (accounts.filter (fun a => alistMem allocations a.accountId)).map
        (fun account =>
          createAccountAllocation account
            ((alistGet allocations account.accountId).getD 0) security order)
    let totalAllocated := alistSum allocations
    { order := order
      allocations := allocationResults
      summary :=
        { totalAllocated := totalAllocated
          unallocated := order.quantity - totalAllocated
          allocationRate :=
            if order.quantity > 0 then totalAllocated / order.quantity else 0
          accountsAllocated := allocationResults.length
          accountsSkipped := accounts.length - allocationResults.length }
      warnings := createAllocationWarnings accounts allocations security constraints
      errors := []
      optimizationSuccess := some optR.success }

/-- Consistency of a summary with its allocations list: the total equals
the row-quantity sum, the unallocated part is the complement to the
order quantity, and the account count is the row count. -/
def summaryConsistent (order : Order) (r : AllocationResult) : Prop :=
  r.summary.totalAllocated =
    (r.allocations.map AccountAllocationResult.allocatedQuantity).sum ∧
  r.summary.unallocated = order.quantity - r.summary.totalAllocated ∧
  r.summary.accountsAllocated = (r.allocations.length : Int)

/-! ## Helper lemmas: association lists -/

theorem alistSum_nil : alistSum [] = 0 := rfl

theorem alistSum_cons (p : String × ℚ) (m : List (String × ℚ)) :
    alistSum (p :: m) = p.2 + alistSum m := by
  simp [alistSum]

theorem alistMem_iff_mem_keys {m : List (String × ℚ)} {k : String} :
    alistMem m k = true ↔ k ∈ m.map Prod.fst := by
  induction m with
  | nil => simp [alistMem, alistGet]
  | cons p m ih =>
    by_cases h : p.1 = k
    · simp [alistMem, alistGet, h]
    · have hstep : alistMem (p :: m) k = alistMem m k := by
        simp [alistMem, alistGet, h]
      rw [hstep, ih, List.map_cons, List.mem_cons]
      constructor
      · exact Or.inr
      · rintro (hc | hc)
        · exact absurd hc.symm h
        · exact hc

theorem alistGet_mem_of_some {m : List (String × ℚ)} {k : String} {v : ℚ}
    (h : alistGet m k = some v) : (k, v) ∈ m := by
  induction m with
  | nil => simp [alistGet] at h
  | cons p m ih =>
    obtain ⟨pf, ps⟩ := p
    by_cases hk : pf = k
    · subst hk
      simp [alistGet] at h
      subst h
      exact List.mem_cons_self _ _
    · simp only [alistGet, if_neg hk] at h
      exact List.mem_cons_of_mem _ (ih h)

theorem snd_mem_of_get {m : List (String × ℚ)} {k : String} {v : ℚ}
    (h : alistGet m k = some v) : v ∈ m.map Prod.snd := by
  have := alistGet_mem_of_some h
  exact List.mem_map.mpr ⟨(k, v), this, rfl⟩

theorem mem_snd_alistSet {m : List (String × ℚ)} {k : String} {v w : ℚ}
    (h : w ∈ (alistSet m k v).map Prod.snd) : w = v ∨ w ∈ m.map Prod.snd := by
  induction m with
  | nil => simp [alistSet] at h; exact Or.inl h
  | cons p m ih =>
    by_cases hk : p.1 = k
    · simp [alistSet, hk] at h
      rcases h with h | h
      · exact Or.inl h
      · exact Or.inr (by simp [h])
    · simp [alistSet, hk] at h
      rcases h with h | h
      · exact Or.inr (by simp [h])
      · rcases ih (by simpa using h) with h' | h'
        · exact Or.inl h'
        · exact Or.inr (by simp [h'])

theorem alistSum_set_le {m : List (String × ℚ)} {k : String} {v : ℚ}
    (hpos : ∀ w ∈ m.map Prod.snd, 0 ≤ w) :
    alistSum (alistSet m k v) ≤ alistSum m + v := by
  induction m with
  | nil => simp [alistSet, alistSum]
  | cons p m ih =>
    by_cases hk : p.1 = k
    · have h0 : 0 ≤ p.2 := hpos p.2 (by simp)
      simp [alistSet, hk, alistSum_cons]
      linarith
    · have := ih (fun w hw => hpos w (by simp [hw]))
      simp [alistSet, hk, alistSum_cons]
      linarith

theorem alistSum_set_getD_add (m : List (String × ℚ)) (k : String) (d : ℚ) :
    alistSum (alistSet m k ((alistGet m k).getD 0 + d)) = alistSum m + d := by
  induction m with
  | nil => simp [alistSet, alistGet, alistSum]
  | cons p m ih =>
    by_cases hk : p.1 = k
    · simp [alistSet, alistGet, hk, alistSum_cons]
      ring
    · have hset : alistSet (p :: m) k ((alistGet (p :: m) k).getD 0 + d)
          = p :: alistSet m k ((alistGet m k).getD 0 + d) := by
        simp [alistSet, alistGet, hk]
      rw [hset, alistSum_cons, alistSum_cons, ih]
      ring

theorem alistGet_set_self (m : List (String × ℚ)) (k : String) (v : ℚ) :
    alistGet (alistSet m k v) k = some v := by
  induction m with
  | nil => simp [alistSet, alistGet]
  | cons p m ih =>
    by_cases hk : p.1 = k
    · simp [alistSet, hk, alistGet]
    · simp [alistSet, hk, alistGet, ih]

theorem alistGet_set_ne {m : List (String × ℚ)} {k k' : String} {v : ℚ}
    (h : k' ≠ k) : alistGet (alistSet m k v) k' = alistGet m k' := by
  have hkk : ¬ k = k' := fun he => h he.symm
  induction m with
  | nil => simp [alistSet, alistGet, hkk]
  | cons p m ih =>
    by_cases hk : p.1 = k
    · have hp' : ¬ p.1 = k' := by rw [hk]; exact hkk
      simp [alistSet, alistGet, hk, hkk, hp']
    · by_cases hp' : p.1 = k' <;> simp [alistSet, alistGet, hk, hp', ih, h]

theorem alistMem_set_of_mem {m : List (String × ℚ)} {k k' : String} {v : ℚ}
    (h : alistMem m k' = true) : alistMem (alistSet m k v) k' = true := by
  by_cases hk : k' = k
  · subst hk
    simp [alistMem, alistGet_set_self]
  · simpa [alistMem, alistGet_set_ne hk] using h

theorem map_fst_alistSet (m : List (String × ℚ)) (k : String) (v : ℚ) :
    (alistSet m k v).map Prod.fst =
      if alistMem m k then m.map Prod.fst else m.map Prod.fst ++ [k] := by
  induction m with
  | nil => simp [alistSet, alistMem, alistGet]
  | cons p m ih =>
    by_cases hk : p.1 = k
    · simp [alistSet, alistMem, alistGet, hk]
    · simp only [alistSet, if_neg hk, List.map_cons, ih]
      have : alistMem (p :: m) k = alistMem m k := by
        simp [alistMem, alistGet, hk]
      rw [this]
      by_cases hm : alistMem m k <;> simp [hm]

theorem nodup_keys_alistSet {m : List (String × ℚ)} {k : String} {v : ℚ}
    (h : (m.map Prod.fst).Nodup) :
    ((alistSet m k v).map Prod.fst).Nodup := by
  rw [map_fst_alistSet]
  by_cases hm : alistMem m k
  · simpa [hm]
  · have hk : k ∉ m.map Prod.fst := by
      intro hmem
      exact hm (alistMem_iff_mem_keys.mpr hmem)
    simp [hm, List.nodup_append, h, hk]

theorem alistSet_fresh {m : List (String × ℚ)} {k : String} (v : ℚ)
    (h : alistMem m k = false) : alistSet m k v = m ++ [(k, v)] := by
  induction m with
  | nil => simp [alistSet]
  | cons p m ih =>
    by_cases hk : p.1 = k
    · simp [alistMem, alistGet, hk] at h
    · have h' : alistMem m k = false := by
        simpa [alistMem, alistGet, hk] using h
      simp [alistSet, hk, ih h']

theorem alistSum_append (m m' : List (String × ℚ)) :
    alistSum (m ++ m') = alistSum m + alistSum m' := by
  simp [alistSum]

theorem alistGet_of_nodup_mem {m : List (String × ℚ)} {k : String} {v : ℚ}
    (hn : (m.map Prod.fst).Nodup) (h : (k, v) ∈ m) : alistGet m k = some v := by
  induction m with
  | nil => simp at h
  | cons p m ih =>
    rcases List.mem_cons.mp h with h' | h'
    · rw [← h']
      simp [alistGet]
    · have hk : ¬ p.1 = k := by
        intro hk
        have hmem : k ∈ m.map Prod.fst := List.mem_map.mpr ⟨(k, v), h', rfl⟩
        rw [List.map_cons, List.nodup_cons, hk] at hn
        exact hn.1 hmem
      have hn' : (m.map Prod.fst).Nodup := by
        rw [List.map_cons, List.nodup_cons] at hn
        exact hn.2
      simp [alistGet, hk, ih hn' h']

theorem mem_le_alistSum {m : List (String × ℚ)} {p : String × ℚ}
    (hpos : ∀ w ∈ m.map Prod.snd, 0 ≤ w) (hp : p ∈ m) : p.2 ≤ alistSum m :=
  List.single_le_sum hpos p.2 (List.mem_map.mpr ⟨p, hp, rfl⟩)

theorem mem_of_mem_alistRemove {m : List (String × ℚ)} {k : String}
    {p : String × ℚ} (h : p ∈ alistRemove m k) : p ∈ m ∧ p.1 ≠ k := by
  induction m with
  | nil => simp [alistRemove] at h
  | cons q m ih =>
    by_cases hq : q.1 = k
    · rw [alistRemove, if_pos hq] at h
      exact ⟨List.mem_cons_of_mem _ (ih h).1, (ih h).2⟩
    · rw [alistRemove, if_neg hq] at h
      rcases List.mem_cons.mp h with h' | h'
      · exact ⟨List.mem_cons.mpr (Or.inl h'), h' ▸ hq⟩
      · exact ⟨List.mem_cons_of_mem _ (ih h').1, (ih h').2⟩

theorem alistRemove_eq_of_not_mem {m : List (String × ℚ)} {k : String}
    (h : k ∉ m.map Prod.fst) : alistRemove m k = m := by
  induction m with
  | nil => rfl
  | cons q m ih =>
    rw [List.map_cons] at h
    have h1 : ¬ k = q.1 := fun he => h (List.mem_cons.mpr (Or.inl he))
    have h2 : k ∉ m.map Prod.fst := fun he => h (List.mem_cons_of_mem _ he)
    rw [alistRemove, if_neg (fun he => h1 he.symm), ih h2]

theorem alistGet_remove_ne {m : List (String × ℚ)} {k k' : String}
    (h : k' ≠ k) : alistGet (alistRemove m k) k' = alistGet m k' := by
  induction m with
  | nil => rfl
  | cons q m ih =>
    by_cases hq : q.1 = k
    · have : ¬ q.1 = k' := by rw [hq]; exact fun he => h he.symm
      rw [alistRemove, if_pos hq, ih, alistGet, if_neg this]
    · rw [alistRemove, if_neg hq, alistGet, alistGet]
      by_cases hq' : q.1 = k' <;> simp [hq', ih]

theorem keys_alistRemove_sublist (m : List (String × ℚ)) (k : String) :
    ((alistRemove m k).map Prod.fst).Sublist (m.map Prod.fst) := by
  induction m with
  | nil => simp [alistRemove]
  | cons q m ih =>
    by_cases hq : q.1 = k
    · rw [alistRemove, if_pos hq, List.map_cons]
      exact ih.cons _
    · rw [alistRemove, if_neg hq, List.map_cons, List.map_cons]
      exact ih.cons₂ _

theorem alistSum_remove_of_get {m : List (String × ℚ)} {k : String} {v : ℚ}
    (hn : (m.map Prod.fst).Nodup) (h : alistGet m k = some v) :
    alistSum m = v + alistSum (alistRemove m k) := by
  induction m with
  | nil => simp [alistGet] at h
  | cons q m ih =>
    rw [List.map_cons, List.nodup_cons] at hn
    by_cases hq : q.1 = k
    · rw [alistGet, if_pos hq] at h
      have hnot : k ∉ m.map Prod.fst := hq ▸ hn.1
      rw [alistRemove, if_pos hq, alistRemove_eq_of_not_mem hnot,
        alistSum_cons, Option.some_inj.mp h]
    · rw [alistGet, if_neg hq] at h
      rw [alistRemove, if_neg hq, alistSum_cons, alistSum_cons, ih hn.2 h]
      ring

/-! ## Helper lemmas: rounding and sorting -/

theorem roundToDenom_le {q L : ℚ} (hL : 0 < L) : roundToDenom q L ≤ q := by
  have h1 : (⌊q / L⌋ : ℚ) ≤ q / L := Int.floor_le _
  have h2 : (⌊q / L⌋ : ℚ) * L ≤ (q / L) * L :=
    mul_le_mul_of_nonneg_right h1 hL.le
  rwa [div_mul_cancel₀ _ (ne_of_gt hL)] at h2

theorem roundToDenom_nonneg {q L : ℚ} (hL : 0 < L) (hq : 0 ≤ q) :
    0 ≤ roundToDenom q L := by
  have h1 : (0 : ℤ) ≤ ⌊q / L⌋ := Int.floor_nonneg.mpr (div_nonneg hq hL.le)
  have h2 : (0 : ℚ) ≤ (⌊q / L⌋ : ℚ) := by exact_mod_cast h1
  exact mul_nonneg h2 hL.le

theorem roundToDenom_isLotMultiple (q L : ℚ) : isLotMultiple (roundToDenom q L) L :=
  ⟨⌊q / L⌋, rfl⟩

theorem isLotMultiple_add {q L : ℚ} (h : isLotMultiple q L) :
    isLotMultiple (q + L) L := by
  obtain ⟨k, hk⟩ := h
  exact ⟨k + 1, by rw [hk]; push_cast; ring⟩

theorem mem_insertNavDesc {a x : Account} {l : List Account}
    (h : x ∈ insertNavDesc a l) : x = a ∨ x ∈ l := by
  induction l with
  | nil => exact Or.inl (List.mem_singleton.mp (by rwa [insertNavDesc] at h))
  | cons b l ih =>
    rw [insertNavDesc] at h
    split at h
    · rcases List.mem_cons.mp h with h' | h'
      · exact Or.inl h'
      · exact Or.inr h'
    · rcases List.mem_cons.mp h with h' | h'
      · exact Or.inr (List.mem_cons.mpr (Or.inl h'))
      · rcases ih h' with h'' | h''
        · exact Or.inl h''
        · exact Or.inr (List.mem_cons_of_mem _ h'')

theorem mem_sortNavDesc {x : Account} {l : List Account}
    (h : x ∈ sortNavDesc l) : x ∈ l := by
  induction l with
  | nil => rw [sortNavDesc, List.foldr_nil] at h; exact absurd h (List.not_mem_nil x)
  | cons b l ih =>
    rw [sortNavDesc, List.foldr_cons] at h
    rcases mem_insertNavDesc h with h' | h'
    · exact h' ▸ List.mem_cons_self _ _
    · exact List.mem_cons_of_mem _ (ih h')

theorem mem_insertFracDesc {p x : Nat × ℚ} {l : List (Nat × ℚ)}
    (h : x ∈ insertFracDesc p l) : x = p ∨ x ∈ l := by
  induction l with
  | nil => exact Or.inl (List.mem_singleton.mp (by rwa [insertFracDesc] at h))
  | cons q l ih =>
    rw [insertFracDesc] at h
    split at h
    · rcases List.mem_cons.mp h with h' | h'
      · exact Or.inl h'
      · exact Or.inr h'
    · rcases List.mem_cons.mp h with h' | h'
      · exact Or.inr (List.mem_cons.mpr (Or.inl h'))
      · rcases ih h' with h'' | h''
        · exact Or.inl h''
        · exact Or.inr (List.mem_cons_of_mem _ h'')

theorem mem_foldr_insertFracDesc {l : List (Nat × ℚ)} {x : Nat × ℚ}
    (h : x ∈ l.foldr insertFracDesc []) : x ∈ l := by
  induction l with
  | nil => exact absurd h (List.not_mem_nil x)
  | cons q l ih =>
    rw [List.foldr_cons] at h
    rcases mem_insertFracDesc h with h' | h'
    · exact h' ▸ List.mem_cons_self _ _
    · exact List.mem_cons_of_mem _ (ih h')

theorem mem_argsortFracDesc_lt {fracs : List ℚ} {i : Nat}
    (h : i ∈ argsortFracDesc fracs) : i < fracs.length := by
  rw [argsortFracDesc] at h
  obtain ⟨p, hp, hpi⟩ := List.mem_map.mp h
  have hmem : p ∈ (List.range fracs.length).zip fracs := mem_foldr_insertFracDesc hp
  have hlt := (List.of_mem_zip hmem).1
  rw [List.mem_range] at hlt
  exact hpi ▸ hlt

/-! ## Helper lemmas: input validation -/

theorem validateInputs_eq_nil {order : Order} {security : Security}
    {accounts : List Account} {constraints : AllocationConstraints}
    (h : validateInputs order security accounts constraints = []) :
    accounts ≠ [] ∧ 0 < order.quantity ∧ 0 < security.price ∧
      security.minDenomination ≤ constraints.minAllocation := by
  rw [validateInputs] at h
  rcases List.append_eq_nil.mp h with ⟨h123, h4⟩
  rcases List.append_eq_nil.mp h123 with ⟨h12, h3⟩
  rcases List.append_eq_nil.mp h12 with ⟨h1, h2⟩
  refine ⟨?_, ?_, ?_, ?_⟩
  · intro hc; simp [hc] at h1
  · by_contra hc; push_neg at hc; simp [hc] at h2
  · by_contra hc; push_neg at hc; simp [hc] at h3
  · by_contra hc; push_neg at hc; simp [hc] at h4

/-! ## Helper lemmas: the constraint projection -/

theorem effectivePrice_ne_zero {order : Order} {security : Security}
    (hp : 0 < security.price) : effectivePrice order security ≠ 0 := by
  cases ho : order.price with
  | none =>
    simp only [effectivePrice, ho]
    exact ne_of_gt hp
  | some p' =>
    by_cases hz : p' = 0
    · simp only [effectivePrice, ho, if_pos hz]
      exact ne_of_gt hp
    · simp only [effectivePrice, ho, if_neg hz]
      exact hz

theorem applySideConstraints_some_le {account : Account} {security : Security}
    {order : Order} {constraints : AllocationConstraints} {a0 a1 : ℚ}
    (hL : 0 < security.minDenomination)
    (hcash : 0 ≤ account.availableCash)
    (hp : 0 < security.price)
    (ha0 : 0 < a0)
    (h : applySideConstraints account security order constraints a0 = some a1) :
    a1 ≤ a0 := by
  rw [applySideConstraints] at h
  by_cases hbuy : order.side = "BUY" ∧ constraints.respectCash
  · rw [if_pos hbuy] at h
    by_cases hover : a0 * effectivePrice order security > account.availableCash
    · rw [if_pos hover] at h
      have hppos : 0 < effectivePrice order security := by
        rcases (@effectivePrice_ne_zero order security hp).lt_or_lt with hneg | hpos
        · exact absurd (le_trans (mul_nonpos_of_nonneg_of_nonpos ha0.le hneg.le) hcash)
            (not_le.mpr hover)
        · exact hpos
      by_cases haff : roundToDenom (account.availableCash / effectivePrice order security)
          security.minDenomination < constraints.minAllocation
      · rw [if_pos haff] at h
        exact absurd h (by simp)
      · rw [if_neg haff] at h
        have hdiv : account.availableCash / effectivePrice order security < a0 :=
          (div_lt_iff₀ hppos).mpr (by linarith [hover])
        have := roundToDenom_le
          (q := account.availableCash / effectivePrice order security) hL
        rw [← Option.some_inj.mp h]
        linarith
    · rw [if_neg hover] at h
      rw [← Option.some_inj.mp h]
  · rw [if_neg hbuy] at h
    by_cases hsell : order.side = "SELL"
    · rw [if_pos hsell] at h
      by_cases hposn : a0 > account.currentPosition
      · rw [if_pos hposn] at h
        have := roundToDenom_le (q := account.currentPosition) hL
        rw [← Option.some_inj.mp h]
        linarith
      · rw [if_neg hposn] at h
        rw [← Option.some_inj.mp h]
    · rw [if_neg hsell] at h
      rw [← Option.some_inj.mp h]

theorem proRataConcStep_le {account : Account} {security : Security}
    {order : Order} {constraints : AllocationConstraints} {a1 target : ℚ}
    (hL : 0 < security.minDenomination)
    (ht : 0 ≤ target)
    (ha1 : a1 ≤ target)
    (hp : 0 < security.price)
    (hmc : ∀ mc, constraints.maxConcentration = some mc → 0 < mc) :
    proRataConcStep account security order constraints a1 ≤ target := by
  cases hm : constraints.maxConcentration with
  | none =>
    simp only [proRataConcStep, hm]
    exact ha1
  | some mc =>
    have hmcpos : 0 < mc := hmc mc hm
    simp only [proRataConcStep, hm]
    rw [if_neg (ne_of_gt hmcpos)]
    by_cases hnav : account.nav > 0
    · rw [if_pos hnav]
      by_cases hcc : a1 * effectivePrice order security / account.nav > mc
      · rw [if_pos hcc]
        rcases (@effectivePrice_ne_zero order security hp).lt_or_lt with hneg | hpos
        · have hlt : account.nav * mc / effectivePrice order security < 0 :=
            div_neg_of_pos_of_neg (mul_pos hnav hmcpos) hneg
          exact le_trans (roundToDenom_le hL) (by linarith)
        · have h1 : mc * account.nav < a1 * effectivePrice order security :=
            (lt_div_iff₀ hnav).mp hcc
          have h2 : account.nav * mc / effectivePrice order security < a1 := by
            rw [div_lt_iff₀ hpos]
            linarith
          exact le_trans (roundToDenom_le hL) (by linarith)
      · rw [if_neg hcc]
        exact ha1
    · rw [if_neg hnav, if_neg (not_lt.mpr hmcpos.le)]
      exact ha1

theorem proRataApplyConstraints_le {account : Account} {target : ℚ}
    {security : Security} {order : Order} {constraints : AllocationConstraints}
    (hL : 0 < security.minDenomination)
    (ht : 0 ≤ target)
    (hcash : 0 ≤ account.availableCash)
    (hp : 0 < security.price)
    (hmin : security.minDenomination ≤ constraints.minAllocation)
    (hmc : ∀ mc, constraints.maxConcentration = some mc → 0 < mc) :
    proRataApplyConstraints account target security order constraints ≤ target := by
  simp only [proRataApplyConstraints]
  set a0 := if constraints.roundToDenomination then
    roundToDenom target security.minDenomination else target with ha0def
  have ha0 : a0 ≤ target := by
    rw [ha0def]
    split
    · exact roundToDenom_le hL
    · exact le_refl _
  by_cases hlt : a0 < constraints.minAllocation
  · rw [if_pos hlt]
    exact ht
  · rw [if_neg hlt]
    push_neg at hlt
    have ha0pos : 0 < a0 := lt_of_lt_of_le (lt_of_lt_of_le hL hmin) hlt
    cases hside : applySideConstraints account security order constraints a0 with
    | none => exact ht
    | some a1 =>
      have ha1 : a1 ≤ a0 := applySideConstraints_some_le hL hcash hp ha0pos hside
      exact proRataConcStep_le hL ht (le_trans ha1 ha0) hp hmc

theorem customApplyConstraints_le {account : Account} {target : ℚ}
    {security : Security} {order : Order} {constraints : AllocationConstraints}
    (hL : 0 < security.minDenomination)
    (ht : 0 ≤ target)
    (hcash : 0 ≤ account.availableCash)
    (hp : 0 < security.price)
    (hmin : security.minDenomination ≤ constraints.minAllocation) :
    customApplyConstraints account target security order constraints ≤ target := by
  simp only [customApplyConstraints]
  set a0 := if constraints.roundToDenomination then
    roundToDenom target security.minDenomination else target with ha0def
  have ha0 : a0 ≤ target := by
    rw [ha0def]
    split
    · exact roundToDenom_le hL
    · exact le_refl _
  by_cases hlt : a0 < constraints.minAllocation
  · rw [if_pos hlt]
    exact ht
  · rw [if_neg hlt]
    push_neg at hlt
    have ha0pos : 0 < a0 := lt_of_lt_of_le (lt_of_lt_of_le hL hmin) hlt
    cases hside : applySideConstraints account security order constraints a0 with
    | none => exact ht
    | some a1 =>
      exact le_trans (applySideConstraints_some_le hL hcash hp ha0pos hside)
        (le_trans ha0 (le_refl _))

/-! ## Helper lemmas: fold invariants for the allocation passes -/

/-- Invariant for the first-pass folds: every step either leaves the
state unchanged or stores a positive value bounded by `bound x` while
adding it to the running total.  Conclusion: values stay positive, the
map sum stays below the running total, and the running total grows by at
most the sum of the bounds. -/
theorem foldl_mainPass_invariant {α : Type} (bound : α → ℚ) :
    ∀ (l : List α) (step : (List (String × ℚ) × ℚ) → α → (List (String × ℚ) × ℚ))
      (st : List (String × ℚ) × ℚ),
      (∀ x ∈ l, 0 ≤ bound x) →
      (∀ st' x, x ∈ l → step st' x = st' ∨
        ∃ v, 0 < v ∧ v ≤ bound x ∧ ∃ k, step st' x = (alistSet st'.1 k v, st'.2 + v)) →
      (∀ w ∈ st.1.map Prod.snd, 0 < w) → alistSum st.1 ≤ st.2 →
      (∀ w ∈ (l.foldl step st).1.map Prod.snd, 0 < w) ∧
        alistSum (l.foldl step st).1 ≤ (l.foldl step st).2 ∧
        (l.foldl step st).2 ≤ st.2 + (l.map bound).sum := by
  intro l
  induction l with
  | nil =>
    intro step st _ _ h1 h2
    exact ⟨h1, h2, by simp⟩
  | cons x l ih =>
    intro step st hb hstep h1 h2
    rw [List.foldl_cons]
    have hb' : ∀ y ∈ l, 0 ≤ bound y := fun y hy => hb y (List.mem_cons_of_mem _ hy)
    have hstep' : ∀ st' y, y ∈ l → step st' y = st' ∨
        ∃ v, 0 < v ∧ v ≤ bound y ∧ ∃ k, step st' y = (alistSet st'.1 k v, st'.2 + v) :=
      fun st' y hy => hstep st' y (List.mem_cons_of_mem _ hy)
    have hbx : 0 ≤ bound x := hb x (List.mem_cons_self _ _)
    rcases hstep st x (List.mem_cons_self _ _) with he | ⟨v, hv0, hvb, k, he⟩
    · rw [he]
      obtain ⟨c1, c2, c3⟩ := ih step st hb' hstep' h1 h2
      refine ⟨c1, c2, ?_⟩
      rw [List.map_cons, List.sum_cons]
      linarith
    · rw [he]
      have h1' : ∀ w ∈ (alistSet st.1 k v).map Prod.snd, 0 < w := fun w hw =>
        (mem_snd_alistSet hw).elim (fun e => e ▸ hv0) (h1 w)
      have h2' : alistSum (alistSet st.1 k v) ≤ st.2 + v := by
        have := alistSum_set_le (m := st.1) (k := k) (v := v)
          (fun w hw => (h1 w hw).le)
        linarith
      obtain ⟨c1, c2, c3⟩ := ih step (alistSet st.1 k v, st.2 + v) hb' hstep' h1' h2'
      refine ⟨c1, c2, ?_⟩
      rw [List.map_cons, List.sum_cons]
      simp only at c3
      linarith

/-- Invariant for a value property `P` through the first-pass folds:
every step either leaves the map unchanged or stores a value satisfying
`P` (the step may use that all current values satisfy `P`). -/
theorem foldl_preserves_values {σ α : Type} (proj : σ → List (String × ℚ))
    (P : ℚ → Prop) :
    ∀ (l : List α) (step : σ → α → σ) (st : σ),
      (∀ st' x, x ∈ l → (∀ w ∈ (proj st').map Prod.snd, P w) →
        proj (step st' x) = proj st' ∨
        ∃ k v, P v ∧ proj (step st' x) = alistSet (proj st') k v) →
      (∀ w ∈ (proj st).map Prod.snd, P w) →
      ∀ w ∈ (proj (l.foldl step st)).map Prod.snd, P w := by
  intro l
  induction l with
  | nil =>
    intro step st _ h1
    exact h1
  | cons x l ih =>
    intro step st hstep h1
    rw [List.foldl_cons]
    have hstep' : ∀ st' y, y ∈ l → (∀ w ∈ (proj st').map Prod.snd, P w) →
        proj (step st' y) = proj st' ∨
        ∃ k v, P v ∧ proj (step st' y) = alistSet (proj st') k v :=
      fun st' y hy => hstep st' y (List.mem_cons_of_mem _ hy)
    rcases hstep st x (List.mem_cons_self _ _) h1 with he | ⟨k, v, hv, he⟩
    · exact ih step (step st x) hstep' (he ▸ h1)
    · refine ih step (step st x) hstep' ?_
      rw [he]
      exact fun w hw => (mem_snd_alistSet hw).elim (fun e => e ▸ hv) (h1 w)

/-- Invariant for the remainder-distribution folds: every step either
leaves the state unchanged or, holding at least one denomination of
remainder, adds one denomination to an entry and removes it from the
remainder.  The combined quantity `map sum + remainder` is conserved and
the remainder stays nonnegative. -/
theorem foldl_remainder_invariant {α : Type} (L : ℚ) :
    ∀ (l : List α) (step : (List (String × ℚ) × ℚ) → α → (List (String × ℚ) × ℚ))
      (st : List (String × ℚ) × ℚ),
      (∀ st' x, x ∈ l → step st' x = st' ∨
        (L ≤ st'.2 ∧ ∃ k, step st' x =
          (alistSet st'.1 k ((alistGet st'.1 k).getD 0 + L), st'.2 - L))) →
      0 ≤ st.2 →
      alistSum (l.foldl step st).1 + (l.foldl step st).2 = alistSum st.1 + st.2 ∧
        0 ≤ (l.foldl step st).2 := by
  intro l
  induction l with
  | nil =>
    intro step st _ h0
    exact ⟨rfl, h0⟩
  | cons x l ih =>
    intro step st hstep h0
    rw [List.foldl_cons]
    have hstep' : ∀ st' y, y ∈ l → step st' y = st' ∨
        (L ≤ st'.2 ∧ ∃ k, step st' y =
          (alistSet st'.1 k ((alistGet st'.1 k).getD 0 + L), st'.2 - L)) :=
      fun st' y hy => hstep st' y (List.mem_cons_of_mem _ hy)
    rcases hstep st x (List.mem_cons_self _ _) with he | ⟨hge, k, he⟩
    · rw [he]
      exact ih step st hstep' h0
    · rw [he]
      have h0' : 0 ≤ st.2 - L := by linarith
      obtain ⟨c1, c2⟩ :=
        ih step (alistSet st.1 k ((alistGet st.1 k).getD 0 + L), st.2 - L) hstep' h0'
      refine ⟨?_, c2⟩
      rw [c1]
      simp only [alistSum_set_getD_add]
      ring

theorem remainderStep_cases (security : Security)
    (constraints : AllocationConstraints) (st : List (String × ℚ) × ℚ)
    (x : Account) :
    remainderStep security constraints st x = st ∨
      (security.minDenomination ≤ st.2 ∧
        ∃ k, remainderStep security constraints st x =
          (alistSet st.1 k ((alistGet st.1 k).getD 0 + security.minDenomination),
            st.2 - security.minDenomination)) := by
  rw [remainderStep]
  by_cases hc1 : st.2 < security.minDenomination
  · left
    simp [hc1]
  · by_cases hc2 : constraints.respectCash
    · by_cases hc3 : ((alistGet st.1 x.accountId).getD 0 + security.minDenomination) *
          security.price ≤ x.availableCash
      · right
        exact ⟨not_lt.mp hc1, x.accountId, by simp [hc1, hc2, hc3]⟩
      · left
        simp [hc1, hc2, hc3]
    · left
      simp [hc1, hc2]

theorem distributeRemainder_sum_le {remainder : ℚ}
    {allocations : List (String × ℚ)} {accounts : List Account}
    {security : Security} {constraints : AllocationConstraints}
    (hrem : 0 ≤ remainder) :
    alistSum (distributeRemainder remainder allocations accounts security constraints)
      ≤ alistSum allocations + remainder := by
  rw [distributeRemainder]
  by_cases hsmall : remainder < security.minDenomination
  · rw [if_pos hsmall]
    linarith
  · rw [if_neg hsmall]
    obtain ⟨c1, c2⟩ := foldl_remainder_invariant security.minDenomination
      (sortNavDesc (accounts.filter (fun a => alistMem allocations a.accountId)))
      (remainderStep security constraints) (allocations, remainder)
      (fun st' x _ => remainderStep_cases security constraints st' x) hrem
    simp only at c1 c2 ⊢
    linarith

/-- Per-account pro-rata weights are nonnegative when the size metric is. -/
theorem proRataWeight_nonneg {baseMetric : String} {accounts : List Account}
    {account : Account}
    (hmetric : ∀ a ∈ accounts, 0 ≤ metricValue baseMetric a)
    (ha : account ∈ accounts) :
    0 ≤ proRataWeight baseMetric accounts account := by
  rw [proRataWeight]
  by_cases hT : (accounts.map (metricValue baseMetric)).sum = 0
  · simp [hT]
  · rw [if_neg hT]
    have hT0 : 0 ≤ (accounts.map (metricValue baseMetric)).sum :=
      List.sum_nonneg (by
        intro q hq
        obtain ⟨a, ha', rfl⟩ := List.mem_map.mp hq
        exact hmetric a ha')
    exact div_nonneg (hmetric account ha) hT0

/-- The pro-rata targets over the whole account list total at most the
order quantity. -/
theorem proRataTargets_sum_le {baseMetric : String} {accounts : List Account}
    {q : ℚ}
    (hq : 0 ≤ q) :
    (accounts.map (fun a => q * proRataWeight baseMetric accounts a)).sum ≤ q := by
  by_cases hT : (accounts.map (metricValue baseMetric)).sum = 0
  · have hz : ∀ a ∈ accounts, q * proRataWeight baseMetric accounts a = 0 := by
      intro a _
      rw [proRataWeight, if_pos hT, mul_zero]
    rw [List.map_congr_left hz]
    simp [hq]
  · have hstep : ∀ a ∈ accounts, q * proRataWeight baseMetric accounts a =
        (q / (accounts.map (metricValue baseMetric)).sum) * metricValue baseMetric a := by
      intro a _
      rw [proRataWeight, if_neg hT]
      field_simp
    rw [List.map_congr_left hstep, List.sum_map_mul_left, div_mul_cancel₀ _ hT]

theorem proRataMainStep_cases (order : Order) (security : Security)
    (accounts : List Account) (baseMetric : String)
    (constraints : AllocationConstraints)
    (hL : 0 < security.minDenomination)
    (hq : 0 < order.quantity)
    (hp : 0 < security.price)
    (hmin : security.minDenomination ≤ constraints.minAllocation)
    (hmc : ∀ mc, constraints.maxConcentration = some mc → 0 < mc)
    (st : List (String × ℚ) × ℚ) (x : Account)
    (hcash : 0 ≤ x.availableCash)
    (hw : 0 ≤ proRataWeight baseMetric accounts x) :
    proRataMainStep order security accounts baseMetric constraints st x = st ∨
      ∃ v, 0 < v ∧ v ≤ order.quantity * proRataWeight baseMetric accounts x ∧
        ∃ k, proRataMainStep order security accounts baseMetric constraints st x =
          (alistSet st.1 k v, st.2 + v) := by
  rw [proRataMainStep]
  by_cases hw0 : proRataWeight baseMetric accounts x = 0
  · left
    simp [hw0]
  · rw [if_neg hw0]
    by_cases hpos : proRataApplyConstraints x
        (order.quantity * proRataWeight baseMetric accounts x) security order
        constraints > 0
    · right
      refine ⟨_, hpos, ?_, x.accountId, by rw [if_pos hpos]⟩
      exact proRataApplyConstraints_le hL
        (mul_nonneg hq.le hw) hcash hp hmin hmc
    · left
      rw [if_neg hpos]

/-- Bounds on the pro-rata first pass: the stored values are positive,
the dict sum is below the running total, and the running total is at
most the order quantity. -/
theorem proRataMainPass_bounds {order : Order} {security : Security}
    {accounts : List Account} {baseMetric : String}
    {constraints : AllocationConstraints}
    (hL : 0 < security.minDenomination)
    (hq : 0 < order.quantity)
    (hp : 0 < security.price)
    (hmin : security.minDenomination ≤ constraints.minAllocation)
    (hmc : ∀ mc, constraints.maxConcentration = some mc → 0 < mc)
    (hcash : ∀ a ∈ accounts, 0 ≤ a.availableCash)
    (hmetric : ∀ a ∈ accounts, 0 ≤ metricValue baseMetric a) :
    (∀ w ∈ (proRataMainPass order security accounts baseMetric constraints).1.map
      Prod.snd, 0 < w) ∧
      alistSum (proRataMainPass order security accounts baseMetric constraints).1 ≤
        (proRataMainPass order security accounts baseMetric constraints).2 ∧
      (proRataMainPass order security accounts baseMetric constraints).2 ≤
        order.quantity := by
  have hinv := foldl_mainPass_invariant
    (fun a => order.quantity * proRataWeight baseMetric accounts a) accounts
    (proRataMainStep order security accounts baseMetric constraints) ([], 0)
    (fun x hx => mul_nonneg hq.le (proRataWeight_nonneg hmetric hx))
    (fun st' x hx => proRataMainStep_cases order security accounts baseMetric
      constraints hL hq hp hmin hmc st' x (hcash x hx)
      (proRataWeight_nonneg hmetric hx))
    (by simp)
    (by simp [alistSum])
  rw [proRataMainPass]
  refine ⟨hinv.1, hinv.2.1, le_trans hinv.2.2 ?_⟩
  rw [zero_add]
  exact proRataTargets_sum_le hq.le

/-- Core of invariant I1 for the pro-rata engine: both the final
allocations dict sum and the reported total are at most the order
quantity. -/
theorem proRataAllocations_sum_le {order : Order} {security : Security}
    {accounts : List Account} {baseMetric : String}
    {constraints : AllocationConstraints}
    (hL : 0 < security.minDenomination)
    (hq : 0 < order.quantity)
    (hp : 0 < security.price)
    (hmin : security.minDenomination ≤ constraints.minAllocation)
    (hmc : ∀ mc, constraints.maxConcentration = some mc → 0 < mc)
    (hcash : ∀ a ∈ accounts, 0 ≤ a.availableCash)
    (hmetric : ∀ a ∈ accounts, 0 ≤ metricValue baseMetric a) :
    alistSum (proRataAllocations order security accounts baseMetric constraints).1 ≤
      order.quantity ∧
      (proRataAllocations order security accounts baseMetric constraints).2 ≤
        order.quantity := by
  obtain ⟨hpos, hsum, htot⟩ :=
    @proRataMainPass_bounds order security accounts baseMetric constraints
      hL hq hp hmin hmc hcash hmetric
  rw [proRataAllocations]
  by_cases hlt : (proRataMainPass order security accounts baseMetric constraints).2 <
      order.quantity
  · rw [if_pos hlt]
    simp only []
    have hrem : 0 ≤ order.quantity -
        (proRataMainPass order security accounts baseMetric constraints).2 := by
      linarith
    have := @distributeRemainder_sum_le
      (order.quantity - (proRataMainPass order security accounts baseMetric constraints).2)
      (proRataMainPass order security accounts baseMetric constraints).1
      accounts security constraints hrem
    constructor <;> linarith
  · rw [if_neg hlt]
    exact ⟨le_trans hsum htot, htot⟩

/-! ## Helper lemmas: the custom-weights engine -/

theorem validateWeights_eq_nil {weights : List (String × ℚ)}
    (h : validateWeights weights = []) :
    weights ≠ [] ∧ |alistSum weights - 1| ≤ 1/1000 ∧
      ∀ p ∈ weights, 0 ≤ p.2 ∧ p.2 ≤ 1 := by
  rw [validateWeights] at h
  by_cases hw : weights = []
  · simp [hw] at h
  · rw [if_neg hw] at h
    rcases List.append_eq_nil.mp h with ⟨h1, h2⟩
    refine ⟨hw, ?_, ?_⟩
    · by_contra hc
      push_neg at hc
      rw [if_pos hc] at h1
      cases h1
    · intro p hp
      have hcase := List.flatMap_eq_nil_iff.mp h2 p hp
      by_cases hn : p.2 < 0
      · rw [if_pos hn] at hcase
        cases hcase
      · by_cases hx : p.2 > 1
        · rw [if_neg hn, if_pos hx] at hcase
          cases hcase
        · exact ⟨not_lt.mp hn, not_lt.mp hx⟩

theorem lookupAccount_aux {k : String} {a : Account} :
    ∀ (l : List Account) (r : Option Account),
      l.foldl (fun r x => if x.accountId = k then some x else r) r = some a →
      (a ∈ l ∧ a.accountId = k) ∨ r = some a := by
  intro l
  induction l with
  | nil =>
    intro r h
    exact Or.inr h
  | cons x l ih =>
    intro r h
    rw [List.foldl_cons] at h
    rcases ih _ h with ⟨hm, hk⟩ | hr
    · exact Or.inl ⟨List.mem_cons_of_mem _ hm, hk⟩
    · by_cases hx : x.accountId = k
      · rw [if_pos hx] at hr
        exact Or.inl ⟨List.mem_cons.mpr (Or.inl (Option.some_inj.mp hr).symm),
          (Option.some_inj.mp hr) ▸ hx⟩
      · rw [if_neg hx] at hr
        exact Or.inr hr

theorem lookupAccount_mem {accounts : List Account} {k : String} {a : Account}
    (h : lookupAccount accounts k = some a) : a ∈ accounts ∧ a.accountId = k := by
  rcases lookupAccount_aux accounts none h with hres | hres
  · exact hres
  · cases hres

theorem customMainStep_cases (order : Order) (security : Security)
    (accounts : List Account) (constraints : AllocationConstraints)
    (hL : 0 < security.minDenomination)
    (hq : 0 < order.quantity)
    (hp : 0 < security.price)
    (hmin : security.minDenomination ≤ constraints.minAllocation)
    (hcash : ∀ a ∈ accounts, 0 ≤ a.availableCash)
    (st : List (String × ℚ) × ℚ) (p : String × ℚ)
    (hw : 0 ≤ p.2) :
    customMainStep order security accounts constraints st p = st ∨
      ∃ v, 0 < v ∧ v ≤ order.quantity * p.2 ∧
        ∃ k, customMainStep order security accounts constraints st p =
          (alistSet st.1 k v, st.2 + v) := by
  rw [customMainStep]
  cases hlook : lookupAccount accounts p.1 with
  | none => exact Or.inl rfl
  | some account =>
    simp only []
    by_cases hpos : customApplyConstraints account (order.quantity * p.2)
        security order constraints > 0
    · right
      refine ⟨_, hpos, ?_, p.1, by rw [if_pos hpos]⟩
      exact customApplyConstraints_le hL (mul_nonneg hq.le hw)
        (hcash account (lookupAccount_mem hlook).1) hp hmin
    · left
      rw [if_neg hpos]

/-- Bounds on the custom-weights first pass, under validated weights
summing to at most 1. -/
theorem customMainPass_bounds {order : Order} {security : Security}
    {accounts : List Account} {weights : List (String × ℚ)}
    {constraints : AllocationConstraints}
    (hL : 0 < security.minDenomination)
    (hq : 0 < order.quantity)
    (hp : 0 < security.price)
    (hmin : security.minDenomination ≤ constraints.minAllocation)
    (hcash : ∀ a ∈ accounts, 0 ≤ a.availableCash)
    (hw : ∀ p ∈ weights, 0 ≤ p.2)
    (hwsum : alistSum weights ≤ 1) :
    (∀ w ∈ (customMainPass order security accounts weights constraints).1.map
      Prod.snd, 0 < w) ∧
      alistSum (customMainPass order security accounts weights constraints).1 ≤
        (customMainPass order security accounts weights constraints).2 ∧
      (customMainPass order security accounts weights constraints).2 ≤
        order.quantity := by
  have hinv := foldl_mainPass_invariant (fun p => order.quantity * p.2) weights
    (customMainStep order security accounts constraints) ([], 0)
    (fun p hp' => mul_nonneg hq.le (hw p hp'))
    (fun st' p hp' => customMainStep_cases order security accounts constraints
      hL hq hp hmin hcash st' p (hw p hp'))
    (by simp)
    (by simp [alistSum])
  rw [customMainPass]
  refine ⟨hinv.1, hinv.2.1, le_trans hinv.2.2 ?_⟩
  rw [zero_add]
  have hmap : (weights.map (fun p => order.quantity * p.2)).sum =
      order.quantity * alistSum weights := by
    rw [alistSum, ← List.sum_map_mul_left]
  rw [hmap]
  calc order.quantity * alistSum weights ≤ order.quantity * 1 :=
        mul_le_mul_of_nonneg_left hwsum hq.le
    _ = order.quantity := mul_one _

/-- Generic key-set fact: a fold whose steps only `alistSet` keeps the
keys duplicate-free. -/
theorem foldl_keys_nodup {σ α : Type} (proj : σ → List (String × ℚ)) :
    ∀ (l : List α) (step : σ → α → σ) (st : σ),
      (∀ st' x, x ∈ l → proj (step st' x) = proj st' ∨
        ∃ k v, proj (step st' x) = alistSet (proj st') k v) →
      ((proj st).map Prod.fst).Nodup →
      ((proj (l.foldl step st)).map Prod.fst).Nodup := by
  intro l
  induction l with
  | nil =>
    intro step st _ h1
    exact h1
  | cons x l ih =>
    intro step st hstep h1
    rw [List.foldl_cons]
    have hstep' : ∀ st' y, y ∈ l → proj (step st' y) = proj st' ∨
        ∃ k v, proj (step st' y) = alistSet (proj st') k v :=
      fun st' y hy => hstep st' y (List.mem_cons_of_mem _ hy)
    rcases hstep st x (List.mem_cons_self _ _) with he | ⟨k, v, he⟩
    · exact ih step (step st x) hstep' (he ▸ h1)
    · exact ih step (step st x) hstep' (by rw [he]; exact nodup_keys_alistSet h1)

theorem unallocStep_cases (order : Order) (security : Security)
    (accounts : List Account) (constraints : AllocationConstraints)
    (T : ℚ) (st : List (String × ℚ) × ℚ) (p : String × ℚ) :
    unallocStep order security accounts constraints T st p = st ∨
      (¬ st.2 < security.minDenomination ∧
        security.minDenomination ≤
          roundToDenom (st.2 * (if T > 0 then p.2 / T else 0))
            security.minDenomination ∧
        unallocStep order security accounts constraints T st p =
          (alistSet st.1 p.1 (p.2 +
            roundToDenom (st.2 * (if T > 0 then p.2 / T else 0))
              security.minDenomination),
            st.2 - roundToDenom (st.2 * (if T > 0 then p.2 / T else 0))
              security.minDenomination)) := by
  simp only [unallocStep]
  by_cases hg : st.2 < security.minDenomination
  · left
    rw [if_pos hg]
  · rw [if_neg hg]
    by_cases hge : roundToDenom (st.2 * (if T > 0 then p.2 / T else 0))
        security.minDenomination ≥ security.minDenomination
    · rw [if_pos hge]
      by_cases hbuy : order.side = "BUY" ∧ constraints.respectCash
      · rw [if_pos hbuy]
        by_cases hc : (p.2 + roundToDenom (st.2 * (if T > 0 then p.2 / T else 0))
              security.minDenomination) * effectivePrice order security ≤
            (lookupAccount accounts p.1).elim 0 Account.availableCash
        · rw [if_pos hc]
          exact Or.inr ⟨hg, hge, rfl⟩
        · rw [if_neg hc]
          exact Or.inl rfl
      · rw [if_neg hbuy]
        by_cases hsell : order.side = "SELL"
        · rw [if_pos hsell]
          by_cases hc : p.2 + roundToDenom (st.2 * (if T > 0 then p.2 / T else 0))
              security.minDenomination ≤
              (lookupAccount accounts p.1).elim 0 Account.currentPosition
          · rw [if_pos hc]
            exact Or.inr ⟨hg, hge, rfl⟩
          · rw [if_neg hc]
            exact Or.inl rfl
        · rw [if_neg hsell]
          exact Or.inl rfl
    · rw [if_neg hge]
      exact Or.inl rfl

/-- Conservation invariant for `_handle_unallocated`: over a
key-distinct snapshot whose entries agree with the live map, the
combined quantity `map sum + unallocated` is conserved and the
unallocated amount stays nonnegative. -/
theorem unallocFold_invariant (order : Order) (security : Security)
    (accounts : List Account) (constraints : AllocationConstraints)
    (T : ℚ) (hL : 0 < security.minDenomination) :
    ∀ (s : List (String × ℚ)) (st : List (String × ℚ) × ℚ),
      (s.map Prod.fst).Nodup →
      (∀ p ∈ s, alistGet st.1 p.1 = some p.2) →
      (∀ p ∈ s, 0 < p.2 ∧ p.2 ≤ T) →
      0 ≤ st.2 →
      alistSum (s.foldl (unallocStep order security accounts constraints T) st).1 +
          (s.foldl (unallocStep order security accounts constraints T) st).2 =
        alistSum st.1 + st.2 ∧
        0 ≤ (s.foldl (unallocStep order security accounts constraints T) st).2 := by
  intro s
  induction s with
  | nil =>
    intro st _ _ _ h0
    exact ⟨rfl, h0⟩
  | cons p s ih =>
    intro st hnodup hagree hbnd h0
    rw [List.foldl_cons]
    rw [List.map_cons, List.nodup_cons] at hnodup
    have hagree' : ∀ q ∈ s, alistGet st.1 q.1 = some q.2 :=
      fun q hq => hagree q (List.mem_cons_of_mem _ hq)
    have hbnd' : ∀ q ∈ s, 0 < q.2 ∧ q.2 ≤ T :=
      fun q hq => hbnd q (List.mem_cons_of_mem _ hq)
    rcases unallocStep_cases order security accounts constraints T st p with
      he | ⟨hg, hge, he⟩
    · rw [he]
      exact ih st hnodup.2 hagree' hbnd' h0
    · rw [he]
      set add := roundToDenom (st.2 * (if T > 0 then p.2 / T else 0))
        security.minDenomination with haddDef
      have hadd_le : add ≤ st.2 := by
        by_cases hT : T > 0
        · have hple : p.2 / T ≤ 1 :=
            (div_le_one hT).mpr (hbnd p (List.mem_cons_self _ _)).2
          have hp0 : 0 ≤ p.2 / T :=
            div_nonneg (hbnd p (List.mem_cons_self _ _)).1.le hT.le
          have h1 : st.2 * (if T > 0 then p.2 / T else 0) ≤ st.2 := by
            rw [if_pos hT]
            calc st.2 * (p.2 / T) ≤ st.2 * 1 :=
                  mul_le_mul_of_nonneg_left hple h0
              _ = st.2 := mul_one _
          exact le_trans (roundToDenom_le hL) h1
        · exfalso
          have : roundToDenom (st.2 * (if T > 0 then p.2 / T else 0))
              security.minDenomination = 0 := by
            rw [if_neg hT, mul_zero, roundToDenom, zero_div]
            simp
          rw [← haddDef] at this
          rw [this] at hge
          exact absurd hge (not_le.mpr hL)
      have hgetD : (alistGet st.1 p.1).getD 0 = p.2 := by
        rw [hagree p (List.mem_cons_self _ _)]
        rfl
      have hsum : alistSum (alistSet st.1 p.1 (p.2 + add)) =
          alistSum st.1 + add := by
        rw [← hgetD, alistSum_set_getD_add]
      have hagree'' : ∀ q ∈ s, alistGet (alistSet st.1 p.1 (p.2 + add)) q.1 =
          some q.2 := by
        intro q hq
        have hne : q.1 ≠ p.1 := by
          intro he'
          exact hnodup.1 (he' ▸ List.mem_map.mpr ⟨q, hq, rfl⟩)
        rw [alistGet_set_ne hne]
        exact hagree' q hq
      have h0' : 0 ≤ st.2 - add := by linarith
      obtain ⟨c1, c2⟩ := ih (alistSet st.1 p.1 (p.2 + add), st.2 - add)
        hnodup.2 hagree'' hbnd' h0'
      refine ⟨?_, c2⟩
      rw [c1]
      simp only [hsum]
      ring

theorem handleUnallocated_sum_le {unallocated : ℚ}
    {m : List (String × ℚ)} {accounts : List Account} {security : Security}
    {order : Order} {constraints : AllocationConstraints}
    (hL : 0 < security.minDenomination)
    (hun : 0 ≤ unallocated)
    (hpos : ∀ w ∈ m.map Prod.snd, 0 < w)
    (hkeys : (m.map Prod.fst).Nodup) :
    alistSum (handleUnallocated unallocated m accounts security order constraints) ≤
      alistSum m + unallocated := by
  rw [handleUnallocated]
  by_cases hg : unallocated < security.minDenomination ∨ m = []
  · rw [if_pos hg]
    linarith
  · rw [if_neg hg]
    obtain ⟨c1, c2⟩ := unallocFold_invariant order security accounts constraints
      (alistSum m) hL m (m, unallocated) hkeys
      (fun p hp => alistGet_of_nodup_mem hkeys hp)
      (fun p hp => ⟨hpos p.2 (List.mem_map.mpr ⟨p, hp, rfl⟩),
        mem_le_alistSum (fun w hw => (hpos w hw).le) hp⟩)
      hun
    simp only at c1 c2 ⊢
    linarith

theorem customMainStep_fst_cases (order : Order) (security : Security)
    (accounts : List Account) (constraints : AllocationConstraints)
    (st : List (String × ℚ) × ℚ) (p : String × ℚ) :
    (customMainStep order security accounts constraints st p).1 = st.1 ∨
      ∃ k v, (customMainStep order security accounts constraints st p).1 =
        alistSet st.1 k v := by
  rw [customMainStep]
  cases lookupAccount accounts p.1 with
  | none => exact Or.inl rfl
  | some account =>
    simp only []
    by_cases hq : customApplyConstraints account (order.quantity * p.2)
        security order constraints > 0
    · rw [if_pos hq]
      exact Or.inr ⟨p.1, _, rfl⟩
    · rw [if_neg hq]
      exact Or.inl rfl

theorem proRataMainStep_fst_cases (order : Order) (security : Security)
    (accounts : List Account) (baseMetric : String)
    (constraints : AllocationConstraints)
    (st : List (String × ℚ) × ℚ) (x : Account) :
    (proRataMainStep order security accounts baseMetric constraints st x).1 = st.1 ∨
      ∃ k v, (proRataMainStep order security accounts baseMetric constraints st x).1 =
        alistSet st.1 k v := by
  rw [proRataMainStep]
  by_cases hw : proRataWeight baseMetric accounts x = 0
  · rw [if_pos hw]
    exact Or.inl rfl
  · rw [if_neg hw]
    by_cases hq : proRataApplyConstraints x
        (order.quantity * proRataWeight baseMetric accounts x) security order
        constraints > 0
    · rw [if_pos hq]
      exact Or.inr ⟨x.accountId, _, rfl⟩
    · rw [if_neg hq]
      exact Or.inl rfl

/-- Core of invariant I1 for the custom-weights engine, under the extra
hypothesis that the weights total at most 1 (the validator allows totals
up to `1.001`, for which the bound fails — see the counterexample). -/
theorem customAllocations_sum_le {order : Order} {security : Security}
    {accounts : List Account} {weights : List (String × ℚ)}
    {constraints : AllocationConstraints}
    (hL : 0 < security.minDenomination)
    (hq : 0 < order.quantity)
    (hp : 0 < security.price)
    (hmin : security.minDenomination ≤ constraints.minAllocation)
    (hcash : ∀ a ∈ accounts, 0 ≤ a.availableCash)
    (hw : ∀ p ∈ weights, 0 ≤ p.2)
    (hwsum : alistSum weights ≤ 1) :
    alistSum (customAllocations order security accounts weights constraints).1 ≤
      order.quantity ∧
      (customAllocations order security accounts weights constraints).2 ≤
        order.quantity := by
  obtain ⟨hpos, hsum, htot⟩ :=
    @customMainPass_bounds order security accounts weights constraints
      hL hq hp hmin hcash hw hwsum
  have hkeys : ((customMainPass order security accounts weights constraints).1.map
      Prod.fst).Nodup := by
    rw [customMainPass]
    exact foldl_keys_nodup Prod.fst weights
      (customMainStep order security accounts constraints) ([], 0)
      (fun st' x _ => customMainStep_fst_cases order security accounts constraints st' x)
      (by simp)
  rw [customAllocations]
  by_cases hlt : (customMainPass order security accounts weights constraints).2 <
      order.quantity
  · rw [if_pos hlt]
    simp only []
    have := @handleUnallocated_sum_le
      (order.quantity - (customMainPass order security accounts weights constraints).2)
      (customMainPass order security accounts weights constraints).1
      accounts security order constraints hL (by linarith) hpos hkeys
    constructor <;> linarith
  · rw [if_neg hlt]
    exact ⟨le_trans hsum htot, htot⟩

/-! ## Helper lemmas: the minimum-dispersion rounding pipeline -/

theorem bumpAt_cons_succ (a : ℚ) (r : List ℚ) (n : Nat) (L : ℚ) :
    bumpAt (a :: r) (n + 1) L = a :: bumpAt r n L := by
  simp [bumpAt, List.getD]

theorem bumpAt_sum : ∀ (r : List ℚ) (idx : Nat) (L : ℚ), idx < r.length →
    (bumpAt r idx L).sum = r.sum + L := by
  intro r
  induction r with
  | nil =>
    intro idx L h
    simp at h
  | cons a r ih =>
    intro idx L h
    cases idx with
    | zero =>
      simp [bumpAt, List.getD]
      ring
    | succ n =>
      rw [bumpAt_cons_succ, List.sum_cons, List.sum_cons,
        ih n L (by simpa using h)]
      ring

theorem bumpAt_length (r : List ℚ) (idx : Nat) (L : ℚ) :
    (bumpAt r idx L).length = r.length := by
  simp [bumpAt]

theorem bumpAt_forall {P : ℚ → Prop} {L : ℚ}
    (hP : ∀ u, P u → P (u + L)) :
    ∀ (r : List ℚ) (idx : Nat), (∀ w ∈ r, P w) → ∀ w ∈ bumpAt r idx L, P w := by
  intro r
  induction r with
  | nil =>
    intro idx h w hw
    simp [bumpAt] at hw
  | cons a r ih =>
    intro idx h w hw
    cases idx with
    | zero =>
      simp only [bumpAt, List.getD_cons_zero, List.set_cons_zero] at hw
      rcases List.mem_cons.mp hw with hw' | hw'
      · exact hw' ▸ hP a (h a (List.mem_cons_self _ _))
      · exact h w (List.mem_cons_of_mem _ hw')
    | succ n =>
      rw [bumpAt_cons_succ] at hw
      rcases List.mem_cons.mp hw with hw' | hw'
      · exact hw' ▸ h a (List.mem_cons_self _ _)
      · exact ih n (fun u hu => h u (List.mem_cons_of_mem _ hu)) w hw'

theorem distPass_invariant (L : ℚ) :
    ∀ (idxs : List Nat) (st : List ℚ × ℚ),
      (∀ i ∈ idxs, i < st.1.length) → 0 ≤ st.2 →
      (distPass idxs L st).1.sum + (distPass idxs L st).2 = st.1.sum + st.2 ∧
        0 ≤ (distPass idxs L st).2 ∧
        (distPass idxs L st).1.length = st.1.length := by
  intro idxs
  induction idxs with
  | nil =>
    intro st _ h0
    exact ⟨rfl, h0, rfl⟩
  | cons i idxs ih =>
    intro st hidx h0
    have hstep : distPass (i :: idxs) L st =
        distPass idxs L
          (if st.2 ≥ L then (bumpAt st.1 i L, st.2 - L) else st) := by
      rw [distPass, List.foldl_cons, distPass]
    rw [hstep]
    by_cases hge : st.2 ≥ L
    · rw [if_pos hge]
      have hlen : (bumpAt st.1 i L).length = st.1.length := bumpAt_length _ _ _
      have hidx' : ∀ j ∈ idxs, j < (bumpAt st.1 i L).length := by
        rw [hlen]
        exact fun j hj => hidx j (List.mem_cons_of_mem _ hj)
      have h0' : (0 : ℚ) ≤ st.2 - L := by linarith
      obtain ⟨c1, c2, c3⟩ := ih (bumpAt st.1 i L, st.2 - L) hidx' h0'
      refine ⟨?_, c2, by rw [c3]; exact hlen⟩
      rw [c1]
      simp only []
      rw [bumpAt_sum st.1 i L (hidx i (List.mem_cons_self _ _))]
      ring
    · rw [if_neg hge]
      exact ih st (fun j hj => hidx j (List.mem_cons_of_mem _ hj)) h0

theorem distPass_forall {P : ℚ → Prop} {L : ℚ}
    (hP : ∀ u, P u → P (u + L)) :
    ∀ (idxs : List Nat) (st : List ℚ × ℚ),
      (∀ w ∈ st.1, P w) → ∀ w ∈ (distPass idxs L st).1, P w := by
  intro idxs
  induction idxs with
  | nil =>
    intro st h
    exact h
  | cons i idxs ih =>
    intro st h
    have hstep : distPass (i :: idxs) L st =
        distPass idxs L
          (if st.2 ≥ L then (bumpAt st.1 i L, st.2 - L) else st) := by
      rw [distPass, List.foldl_cons, distPass]
    rw [hstep]
    by_cases hge : st.2 ≥ L
    · rw [if_pos hge]
      exact ih _ (bumpAt_forall hP st.1 i h)
    · rw [if_neg hge]
      exact ih st h

theorem distLoop_sum_le (L : ℚ) :
    ∀ (fuel : Nat) (idxs : List Nat) (r : List ℚ) (rem : ℚ),
      (∀ i ∈ idxs, i < r.length) → 0 ≤ rem →
      (distLoop fuel idxs L r rem).sum ≤ r.sum + rem := by
  intro fuel
  induction fuel with
  | zero =>
    intro idxs r rem _ h0
    rw [distLoop]
    linarith
  | succ fuel ih =>
    intro idxs r rem hidx h0
    rw [distLoop]
    by_cases hge : rem ≥ L
    · rw [if_pos hge]
      obtain ⟨c1, c2, c3⟩ := distPass_invariant L idxs (r, rem) hidx h0
      have := ih idxs (distPass idxs L (r, rem)).1 (distPass idxs L (r, rem)).2
        (by rw [c3]; exact hidx) c2
      simp only at c1
      linarith
    · rw [if_neg hge]
      linarith

theorem distLoop_forall {P : ℚ → Prop} {L : ℚ}
    (hP : ∀ u, P u → P (u + L)) :
    ∀ (fuel : Nat) (idxs : List Nat) (r : List ℚ) (rem : ℚ),
      (∀ w ∈ r, P w) → ∀ w ∈ distLoop fuel idxs L r rem, P w := by
  intro fuel
  induction fuel with
  | zero =>
    intro idxs r rem h
    rw [distLoop]
    exact h
  | succ fuel ih =>
    intro idxs r rem h
    rw [distLoop]
    by_cases hge : rem ≥ L
    · rw [if_pos hge]
      exact ih idxs _ _ (distPass_forall hP idxs (r, rem) h)
    · rw [if_neg hge]
      exact h

theorem roundAllocations_sum_le {xs : List ℚ} {L q : ℚ}
    (hL : 0 < L) (hsum : xs.sum ≤ q) :
    (roundAllocations xs L q).sum ≤ q := by
  have hfloor : (xs.map (fun x => roundToDenom x L)).sum ≤ xs.sum := by
    have h := List.sum_le_sum (l := xs) (f := fun x => roundToDenom x L)
      (g := fun x => x) (fun x _ => roundToDenom_le hL)
    simpa using h
  rw [roundAllocations]
  by_cases hge : q - (xs.map (fun x => roundToDenom x L)).sum ≥ L
  · rw [if_pos hge]
    have hidx : ∀ i ∈ argsortFracDesc (xs.zipWith (fun x r => x - r)
        (xs.map (fun x => roundToDenom x L))),
        i < (xs.map (fun x => roundToDenom x L)).length := by
      intro i hi
      have := mem_argsortFracDesc_lt hi
      rw [List.length_zipWith, List.length_map, Nat.min_self] at this
      rw [List.length_map]
      exact this
    have h0 : (0 : ℚ) ≤ q - (xs.map (fun x => roundToDenom x L)).sum := by
      linarith
    have := distLoop_sum_le L
      (Int.toNat ⌊(q - (xs.map (fun x => roundToDenom x L)).sum) / L⌋ + 1)
      (argsortFracDesc (xs.zipWith (fun x r => x - r)
        (xs.map (fun x => roundToDenom x L))))
      (xs.map (fun x => roundToDenom x L))
      (q - (xs.map (fun x => roundToDenom x L)).sum)
      hidx h0
    linarith
  · rw [if_neg hge]
    linarith

theorem roundAllocations_nonneg {xs : List ℚ} {L q : ℚ}
    (hL : 0 < L) (hxs : ∀ x ∈ xs, 0 ≤ x) :
    ∀ w ∈ roundAllocations xs L q, 0 ≤ w := by
  have hfloor : ∀ w ∈ xs.map (fun x => roundToDenom x L), 0 ≤ w := by
    intro w hw
    obtain ⟨x, hx, rfl⟩ := List.mem_map.mp hw
    exact roundToDenom_nonneg hL (hxs x hx)
  rw [roundAllocations]
  by_cases hge : q - (xs.map (fun x => roundToDenom x L)).sum ≥ L
  · rw [if_pos hge]
    exact distLoop_forall (fun u hu => by linarith) _ _ _ _ hfloor
  · rw [if_neg hge]
    exact hfloor

theorem roundAllocations_multiple {xs : List ℚ} {L q : ℚ} :
    ∀ w ∈ roundAllocations xs L q, isLotMultiple w L := by
  have hfloor : ∀ w ∈ xs.map (fun x => roundToDenom x L), isLotMultiple w L := by
    intro w hw
    obtain ⟨x, _, rfl⟩ := List.mem_map.mp hw
    exact roundToDenom_isLotMultiple x L
  rw [roundAllocations]
  by_cases hge : q - (xs.map (fun x => roundToDenom x L)).sum ≥ L
  · rw [if_pos hge]
    exact distLoop_forall (fun u hu => isLotMultiple_add hu) _ _ _ _ hfloor
  · rw [if_neg hge]
    exact hfloor

theorem applyFinalConstraints_eq (account : Account) (allocatedQuantity : ℚ)
    (security : Security) (order : Order)
    (constraints : AllocationConstraints) :
    applyFinalConstraints account allocatedQuantity security order constraints =
        allocatedQuantity ∨
      applyFinalConstraints account allocatedQuantity security order constraints
        = 0 := by
  rw [applyFinalConstraints]
  split_ifs <;> simp

/-- Variant of the first-pass invariant for folds carrying only the map
(no running total). -/
theorem foldl_alistMap_invariant {α : Type} (bound : α → ℚ) :
    ∀ (l : List α) (step : List (String × ℚ) → α → List (String × ℚ))
      (m : List (String × ℚ)),
      (∀ x ∈ l, 0 ≤ bound x) →
      (∀ m' x, x ∈ l → step m' x = m' ∨
        ∃ v, 0 < v ∧ v ≤ bound x ∧ ∃ k, step m' x = alistSet m' k v) →
      (∀ w ∈ m.map Prod.snd, 0 < w) →
      (∀ w ∈ (l.foldl step m).map Prod.snd, 0 < w) ∧
        alistSum (l.foldl step m) ≤ alistSum m + (l.map bound).sum := by
  intro l
  induction l with
  | nil =>
    intro step m _ _ h1
    exact ⟨h1, by simp⟩
  | cons x l ih =>
    intro step m hb hstep h1
    rw [List.foldl_cons]
    have hb' : ∀ y ∈ l, 0 ≤ bound y := fun y hy => hb y (List.mem_cons_of_mem _ hy)
    have hstep' : ∀ m' y, y ∈ l → step m' y = m' ∨
        ∃ v, 0 < v ∧ v ≤ bound y ∧ ∃ k, step m' y = alistSet m' k v :=
      fun m' y hy => hstep m' y (List.mem_cons_of_mem _ hy)
    have hbx : 0 ≤ bound x := hb x (List.mem_cons_self _ _)
    rcases hstep m x (List.mem_cons_self _ _) with he | ⟨v, hv0, hvb, k, he⟩
    · rw [he]
      obtain ⟨c1, c2⟩ := ih step m hb' hstep' h1
      refine ⟨c1, ?_⟩
      rw [List.map_cons, List.sum_cons]
      linarith
    · rw [he]
      have h1' : ∀ w ∈ (alistSet m k v).map Prod.snd, 0 < w := fun w hw =>
        (mem_snd_alistSet hw).elim (fun e => e ▸ hv0) (h1 w)
      obtain ⟨c1, c2⟩ := ih step (alistSet m k v) hb' hstep' h1'
      refine ⟨c1, ?_⟩
      have hset := alistSum_set_le (m := m) (k := k) (v := v)
        (fun w hw => (h1 w hw).le)
      rw [List.map_cons, List.sum_cons]
      linarith

theorem minDispMapStep_cases (order : Order) (security : Security)
    (constraints : AllocationConstraints)
    (m : List (String × ℚ)) (aq : Account × ℚ) :
    minDispMapStep order security constraints m aq = m ∨
      ∃ v, 0 < v ∧ v ≤ aq.2 ∧ ∃ k,
        minDispMapStep order security constraints m aq = alistSet m k v := by
  rw [minDispMapStep]
  by_cases hge : aq.2 ≥ constraints.minAllocation
  · rw [if_pos hge]
    simp only []
    by_cases hfq : applyFinalConstraints aq.1 aq.2 security order constraints > 0
    · rw [if_pos hfq]
      right
      refine ⟨_, hfq, ?_, aq.1.accountId, rfl⟩
      rcases applyFinalConstraints_eq aq.1 aq.2 security order constraints with
        he | he
      · rw [he]
      · rw [he] at hfq
        exact absurd hfq (lt_irrefl 0)
    · rw [if_neg hfq]
      exact Or.inl rfl
  · rw [if_neg hge]
    exact Or.inl rfl

theorem zip_map_snd_sum_le :
    ∀ (l1 : List Account) (l2 : List ℚ), (∀ x ∈ l2, 0 ≤ x) →
      ((l1.zip l2).map (fun p => p.2)).sum ≤ l2.sum := by
  intro l1
  induction l1 with
  | nil =>
    intro l2 h
    simp only [List.zip_nil_left, List.map_nil, List.sum_nil]
    exact List.sum_nonneg h
  | cons a l1 ih =>
    intro l2 h
    cases l2 with
    | nil => simp
    | cons b l2 =>
      simp only [List.zip_cons_cons, List.map_cons, List.sum_cons]
      have := ih l2 (fun x hx => h x (List.mem_cons_of_mem _ hx))
      linarith

/-- The minimum-dispersion allocations dict sums to at most the rounded
vector's total. -/
theorem minDispMap_sum_le {order : Order} {security : Security}
    {accounts : List Account} {constraints : AllocationConstraints}
    {rounded : List ℚ}
    (hr : ∀ w ∈ rounded, 0 ≤ w) :
    alistSum (minDispAllocationsMap order security accounts constraints rounded) ≤
      rounded.sum := by
  have hb : ∀ aq ∈ accounts.zip rounded, 0 ≤ (fun p : Account × ℚ => p.2) aq :=
    fun aq haq => hr aq.2 (List.of_mem_zip haq).2
  obtain ⟨_, c2⟩ := foldl_alistMap_invariant (fun p : Account × ℚ => p.2)
    (accounts.zip rounded) (minDispMapStep order security constraints) []
    hb
    (fun m' aq _ => minDispMapStep_cases order security constraints m' aq)
    (by simp)
  rw [minDispAllocationsMap]
  calc alistSum ((accounts.zip rounded).foldl
        (minDispMapStep order security constraints) []) ≤
        alistSum [] + ((accounts.zip rounded).map (fun p => p.2)).sum := c2
    _ ≤ rounded.sum := by
        rw [alistSum_nil, zero_add]
        exact zip_map_snd_sum_le accounts rounded hr

/-- The fallback pro-rata-by-NAV vector is nonnegative and sums to at
most the order quantity when NAVs are nonnegative. -/
theorem fallbackProrata_bounds {order : Order} {accounts : List Account}
    (hq : 0 ≤ order.quantity)
    (hnav : ∀ a ∈ accounts, 0 ≤ a.nav) :
    (∀ x ∈ (fallbackProrata order accounts).allocations, 0 ≤ x) ∧
      (fallbackProrata order accounts).allocations.sum ≤ order.quantity := by
  rw [fallbackProrata]
  by_cases hT : (accounts.map Account.nav).sum > 0
  · rw [if_pos hT]
    constructor
    · intro x hx
      obtain ⟨a, ha, rfl⟩ := List.mem_map.mp hx
      exact mul_nonneg hq (div_nonneg (hnav a ha) hT.le)
    · have hstep : ∀ a ∈ accounts,
          order.quantity * (a.nav / (accounts.map Account.nav).sum) =
          (order.quantity / (accounts.map Account.nav).sum) * a.nav := by
        intro a _
        field_simp
      rw [List.map_congr_left hstep, List.sum_map_mul_left,
        div_mul_cancel₀ _ (ne_of_gt hT)]
  · rw [if_neg hT]
    constructor
    · intro x hx
      rw [List.eq_of_mem_replicate hx]
    · rw [List.sum_replicate]
      simp [hq]

/-! ## Helper lemmas: unfolding the three `allocate` entry points -/

theorem proRataAllocate_of_invalid {order : Order} {security : Security}
    {accounts : List Account} {baseMetric : String}
    {constraints : AllocationConstraints}
    (h : validateInputs order security accounts constraints ≠ []) :
    proRataAllocate order security accounts baseMetric constraints =
      errorResult order accounts (validateInputs order security accounts constraints) := by
  simp [proRataAllocate, h]

theorem proRataAllocate_of_valid {order : Order} {security : Security}
    {accounts : List Account} {baseMetric : String}
    {constraints : AllocationConstraints}
    (h : validateInputs order security accounts constraints = []) :
    proRataAllocate order security accounts baseMetric constraints =
      { order := order
        allocations := (accounts.filter (fun x =>
            alistMem (proRataAllocations order security accounts baseMetric constraints).1
              x.accountId)).map (fun x =>
            createAccountAllocation x
              ((alistGet (proRataAllocations order security accounts baseMetric
                constraints).1 x.accountId).getD 0) security order)
        summary :=
          { totalAllocated :=
              (proRataAllocations order security accounts baseMetric constraints).2
            unallocated := order.quantity -
              (proRataAllocations order security accounts baseMetric constraints).2
            allocationRate :=
              if order.quantity > 0 then
                (proRataAllocations order security accounts baseMetric constraints).2 /
                  order.quantity
              else 0
            accountsAllocated := ((accounts.filter (fun x =>
                alistMem (proRataAllocations order security accounts baseMetric
                  constraints).1 x.accountId)).map (fun x =>
                createAccountAllocation x
                  ((alistGet (proRataAllocations order security accounts baseMetric
                    constraints).1 x.accountId).getD 0) security order)).length
            accountsSkipped := accounts.length - ((accounts.filter (fun x =>
                alistMem (proRataAllocations order security accounts baseMetric
                  constraints).1 x.accountId)).map (fun x =>
                createAccountAllocation x
                  ((alistGet (proRataAllocations order security accounts baseMetric
                    constraints).1 x.accountId).getD 0) security order)).length }
        warnings := createAllocationWarnings accounts
          (proRataAllocations order security accounts baseMetric constraints).1
          security constraints
        errors := [] } := by
  simp [proRataAllocate, h]

theorem customWeightsAllocate_of_invalid {order : Order} {security : Security}
    {accounts : List Account} {weights : List (String × ℚ)}
    {constraints : AllocationConstraints}
    (h : validateInputs order security accounts constraints ≠ []) :
    customWeightsAllocate order security accounts weights constraints =
      errorResult order accounts (validateInputs order security accounts constraints) := by
  simp [customWeightsAllocate, h]

theorem customWeightsAllocate_of_invalid_weights {order : Order}
    {security : Security} {accounts : List Account}
    {weights : List (String × ℚ)} {constraints : AllocationConstraints}
    (h : validateInputs order security accounts constraints = [])
    (hw : validateWeights weights ≠ []) :
    customWeightsAllocate order security accounts weights constraints =
      errorResult order accounts (validateWeights weights) := by
  simp [customWeightsAllocate, h, hw]

theorem customWeightsAllocate_of_valid {order : Order} {security : Security}
    {accounts : List Account} {weights : List (String × ℚ)}
    {constraints : AllocationConstraints}
    (h : validateInputs order security accounts constraints = [])
    (hw : validateWeights weights = []) :
    customWeightsAllocate order security accounts weights constraints =
      { order := order
        allocations :=
          (customAllocations order security accounts weights constraints).1.map
            (fun p =>
              match lookupAccount accounts p.1 with
              | some account => createAccountAllocation account p.2 security order
              | none => createAccountAllocation
                  ⟨p.1, "", 0, 0, 0, 0, 0, 0, 0, none⟩ 0 security order)
        summary :=
          { totalAllocated :=
              (customAllocations order security accounts weights constraints).2
            unallocated := order.quantity -
              (customAllocations order security accounts weights constraints).2
            allocationRate :=
              if order.quantity > 0 then
                (customAllocations order security accounts weights constraints).2 /
                  order.quantity
              else 0
            accountsAllocated :=
              ((customAllocations order security accounts weights constraints).1.map
                (fun p =>
                  match lookupAccount accounts p.1 with
                  | some account => createAccountAllocation account p.2 security order
                  | none => createAccountAllocation
                      ⟨p.1, "", 0, 0, 0, 0, 0, 0, 0, none⟩ 0 security order)).length
            accountsSkipped :=
              ((weights.filter (fun p => p.2 > 0)).length : Int) -
              ((customAllocations order security accounts weights constraints).1.map
                (fun p =>
                  match lookupAccount accounts p.1 with
                  | some account => createAccountAllocation account p.2 security order
                  | none => createAccountAllocation
                      ⟨p.1, "", 0, 0, 0, 0, 0, 0, 0, none⟩ 0 security order)).length }
        warnings := weights.flatMap (fun p =>
          if p.2 > 0 ∧ ¬ alistMem
              (customAllocations order security accounts weights constraints).1 p.1 then
            match lookupAccount accounts p.1 with
            | some account =>
                createAllocationWarnings [account] [] security constraints
            | none => []
          else [])
        errors := [] } := by
  simp [customWeightsAllocate, h, hw]

theorem minDispAllocate_of_invalid {order : Order} {security : Security}
    {accounts : List Account} {constraints : AllocationConstraints}
    {opt : OptimizationResult}
    (h : validateInputs order security accounts constraints ≠ []) :
    minDispAllocate order security accounts constraints opt =
      errorResult order accounts (validateInputs order security accounts constraints) := by
  simp [minDispAllocate, h]

theorem minDispAllocate_of_valid {order : Order} {security : Security}
    {accounts : List Account} {constraints : AllocationConstraints}
    {opt : OptimizationResult}
    (h : validateInputs order security accounts constraints = []) :
    minDispAllocate order security accounts constraints opt =
      { order := order
        allocations := (accounts.filter (fun x =>
            alistMem (minDispAllocationsMap order security accounts constraints
              (roundAllocations (resolveSolver order accounts opt).allocations
                security.minDenomination order.quantity)) x.accountId)).map (fun x =>
            createAccountAllocation x
              ((alistGet (minDispAllocationsMap order security accounts constraints
                (roundAllocations (resolveSolver order accounts opt).allocations
                  security.minDenomination order.quantity)) x.accountId).getD 0)
              security order)
        summary :=
          { totalAllocated := alistSum (minDispAllocationsMap order security accounts
              constraints (roundAllocations (resolveSolver order accounts opt).allocations
                security.minDenomination order.quantity))
            unallocated := order.quantity - alistSum (minDispAllocationsMap order
              security accounts constraints (roundAllocations
                (resolveSolver order accounts opt).allocations
                security.minDenomination order.quantity))
            allocationRate :=
              if order.quantity > 0 then
                alistSum (minDispAllocationsMap order security accounts constraints
                  (roundAllocations (resolveSolver order accounts opt).allocations
                    security.minDenomination order.quantity)) / order.quantity
              else 0
            accountsAllocated := ((accounts.filter (fun x =>
                alistMem (minDispAllocationsMap order security accounts constraints
                  (roundAllocations (resolveSolver order accounts opt).allocations
                    security.minDenomination order.quantity)) x.accountId)).map (fun x =>
                createAccountAllocation x
                  ((alistGet (minDispAllocationsMap order security accounts constraints
                    (roundAllocations (resolveSolver order accounts opt).allocations
                      security.minDenomination order.quantity)) x.accountId).getD 0)
                  security order)).length
            accountsSkipped := accounts.length - ((accounts.filter (fun x =>
                alistMem (minDispAllocationsMap order security accounts constraints
                  (roundAllocations (resolveSolver order accounts opt).allocations
                    security.minDenomination order.quantity)) x.accountId)).map (fun x =>
                createAccountAllocation x
                  ((alistGet (minDispAllocationsMap order security accounts constraints
                    (roundAllocations (resolveSolver order accounts opt).allocations
                      security.minDenomination order.quantity)) x.accountId).getD 0)
                  security order)).length }
        warnings := createAllocationWarnings accounts
          (minDispAllocationsMap order security accounts constraints
            (roundAllocations (resolveSolver order accounts opt).allocations
              security.minDenomination order.quantity)) security constraints
        errors := []
        optimizationSuccess := some (resolveSolver order accounts opt).success } := by
  simp [minDispAllocate, h]

/-! ## Helper lemmas: the summary/allocations bridge -/

theorem proRataMainStep_key_cases (order : Order) (security : Security)
    (accounts : List Account) (baseMetric : String)
    (constraints : AllocationConstraints)
    (st : List (String × ℚ) × ℚ) (x : Account) :
    proRataMainStep order security accounts baseMetric constraints st x = st ∨
      ∃ v, proRataMainStep order security accounts baseMetric constraints st x =
        (alistSet st.1 x.accountId v, st.2 + v) := by
  rw [proRataMainStep]
  by_cases hw : proRataWeight baseMetric accounts x = 0
  · rw [if_pos hw]
    exact Or.inl rfl
  · rw [if_neg hw]
    by_cases hq : proRataApplyConstraints x
        (order.quantity * proRataWeight baseMetric accounts x) security order
        constraints > 0
    · rw [if_pos hq]
      exact Or.inr ⟨_, rfl⟩
    · rw [if_neg hq]
      exact Or.inl rfl

theorem customMainStep_key_cases (order : Order) (security : Security)
    (accounts : List Account) (constraints : AllocationConstraints)
    (st : List (String × ℚ) × ℚ) (p : String × ℚ) :
    customMainStep order security accounts constraints st p = st ∨
      ((lookupAccount accounts p.1).isSome ∧
        ∃ v, customMainStep order security accounts constraints st p =
          (alistSet st.1 p.1 v, st.2 + v)) := by
  rw [customMainStep]
  cases hlook : lookupAccount accounts p.1 with
  | none => exact Or.inl rfl
  | some account =>
    simp only []
    by_cases hq : customApplyConstraints account (order.quantity * p.2)
        security order constraints > 0
    · rw [if_pos hq]
      exact Or.inr ⟨by simp, _, rfl⟩
    · rw [if_neg hq]
      exact Or.inl rfl

theorem remainderStep_key_cases (security : Security)
    (constraints : AllocationConstraints) (st : List (String × ℚ) × ℚ)
    (x : Account) :
    (remainderStep security constraints st x).1 = st.1 ∨
      ∃ v, (remainderStep security constraints st x).1 =
        alistSet st.1 x.accountId v := by
  rw [remainderStep]
  by_cases hc1 : st.2 < security.minDenomination
  · rw [if_pos hc1]
    exact Or.inl rfl
  · rw [if_neg hc1]
    by_cases hc2 : constraints.respectCash
    · by_cases hc3 : ((alistGet st.1 x.accountId).getD 0 + security.minDenomination) *
          security.price ≤ x.availableCash
      · exact Or.inr ⟨(alistGet st.1 x.accountId).getD 0 + security.minDenomination,
          by simp [hc2, hc3]⟩
      · left
        simp [hc2, hc3]
    · left
      simp [hc2]

theorem unallocStep_key_cases (order : Order) (security : Security)
    (accounts : List Account) (constraints : AllocationConstraints)
    (T : ℚ) (st : List (String × ℚ) × ℚ) (p : String × ℚ) :
    (unallocStep order security accounts constraints T st p).1 = st.1 ∨
      ∃ v, (unallocStep order security accounts constraints T st p).1 =
        alistSet st.1 p.1 v := by
  rcases unallocStep_cases order security accounts constraints T st p with
    he | ⟨_, _, he⟩
  · exact Or.inl (congrArg Prod.fst he)
  · exact Or.inr ⟨_, congrArg Prod.fst he⟩

theorem minDispMapStep_key_cases (order : Order) (security : Security)
    (constraints : AllocationConstraints)
    (m : List (String × ℚ)) (aq : Account × ℚ) :
    minDispMapStep order security constraints m aq = m ∨
      ∃ v, minDispMapStep order security constraints m aq =
        alistSet m aq.1.accountId v := by
  rw [minDispMapStep]
  by_cases hge : aq.2 ≥ constraints.minAllocation
  · rw [if_pos hge]
    simp only []
    by_cases hfq : applyFinalConstraints aq.1 aq.2 security order constraints > 0
    · rw [if_pos hfq]
      exact Or.inr ⟨_, rfl⟩
    · rw [if_neg hfq]
      exact Or.inl rfl
  · rw [if_neg hge]
    exact Or.inl rfl

/-- Generic key tracking: a fold whose steps only `alistSet` at the key
of the current element keeps every key either from the initial map or
from the processed elements. -/
theorem foldl_keys_subset {σ α : Type} (proj : σ → List (String × ℚ))
    (key : α → String) :
    ∀ (l : List α) (step : σ → α → σ) (st : σ),
      (∀ st' x, x ∈ l → proj (step st' x) = proj st' ∨
        ∃ v, proj (step st' x) = alistSet (proj st') (key x) v) →
      ∀ k ∈ (proj (l.foldl step st)).map Prod.fst,
        k ∈ (proj st).map Prod.fst ∨ k ∈ l.map key := by
  intro l
  induction l with
  | nil =>
    intro step st _ k hk
    exact Or.inl hk
  | cons x l ih =>
    intro step st hstep k hk
    rw [List.foldl_cons] at hk
    have hstep' : ∀ st' y, y ∈ l → proj (step st' y) = proj st' ∨
        ∃ v, proj (step st' y) = alistSet (proj st') (key y) v :=
      fun st' y hy => hstep st' y (List.mem_cons_of_mem _ hy)
    rcases ih step (step st x) hstep' k hk with hk' | hk'
    · rcases hstep st x (List.mem_cons_self _ _) with he | ⟨v, he⟩
      · rw [he] at hk'
        exact Or.inl hk'
      · rw [he, map_fst_alistSet] at hk'
        by_cases hm : alistMem (proj st) (key x)
        · rw [if_pos hm] at hk'
          exact Or.inl hk'
        · rw [if_neg (by simpa using hm)] at hk'
          rcases List.mem_append.mp hk' with h' | h'
          · exact Or.inl h'
          · rw [List.mem_singleton] at h'
            exact Or.inr (by rw [List.map_cons, h']; exact List.mem_cons_self _ _)
    · exact Or.inr (by rw [List.map_cons]; exact List.mem_cons_of_mem _ hk')

/-- Generic total tracking: starting from a map whose keys avoid the
processed keys, with distinct processed keys, the running total built by
`alistSet`-at-fresh-key steps equals the map sum. -/
theorem foldl_total_eq_sum {α : Type} (key : α → String) :
    ∀ (l : List α) (step : (List (String × ℚ) × ℚ) → α → (List (String × ℚ) × ℚ))
      (st : List (String × ℚ) × ℚ),
      (∀ st' x, x ∈ l → step st' x = st' ∨
        ∃ v, step st' x = (alistSet st'.1 (key x) v, st'.2 + v)) →
      (l.map key).Nodup →
      (∀ k ∈ st.1.map Prod.fst, k ∉ l.map key) →
      alistSum st.1 = st.2 →
      alistSum (l.foldl step st).1 = (l.foldl step st).2 ∧
        ∀ k ∈ (l.foldl step st).1.map Prod.fst,
          k ∈ st.1.map Prod.fst ∨ k ∈ l.map key := by
  intro l
  induction l with
  | nil =>
    intro step st _ _ _ heq
    exact ⟨heq, fun k hk => Or.inl hk⟩
  | cons x l ih =>
    intro step st hstep hnodup hdisj heq
    rw [List.map_cons, List.nodup_cons] at hnodup
    rw [List.foldl_cons]
    have hstep' : ∀ st' y, y ∈ l → step st' y = st' ∨
        ∃ v, step st' y = (alistSet st'.1 (key y) v, st'.2 + v) :=
      fun st' y hy => hstep st' y (List.mem_cons_of_mem _ hy)
    rcases hstep st x (List.mem_cons_self _ _) with he | ⟨v, he⟩
    · rw [he]
      have hdisj' : ∀ k ∈ st.1.map Prod.fst, k ∉ l.map key := fun k hk hmem =>
        hdisj k hk (by rw [List.map_cons]; exact List.mem_cons_of_mem _ hmem)
      obtain ⟨c1, c2⟩ := ih step st hstep' hnodup.2 hdisj' heq
      refine ⟨c1, fun k hk => ?_⟩
      rcases c2 k hk with h' | h'
      · exact Or.inl h'
      · exact Or.inr (by rw [List.map_cons]; exact List.mem_cons_of_mem _ h')
    · rw [he]
      have hfresh : alistMem st.1 (key x) = false := by
        by_contra hc
        have : alistMem st.1 (key x) = true := by
          cases h' : alistMem st.1 (key x)
          · exact absurd h' hc
          · rfl
        exact hdisj (key x) (alistMem_iff_mem_keys.mp this)
          (by rw [List.map_cons]; exact List.mem_cons_self _ _)
      have hset := alistSet_fresh v hfresh
      have heq' : alistSum (alistSet st.1 (key x) v) = st.2 + v := by
        rw [hset, alistSum_append, heq, alistSum_cons, alistSum_nil]
        ring
      have hkeys' : (alistSet st.1 (key x) v).map Prod.fst =
          st.1.map Prod.fst ++ [key x] := by
        rw [map_fst_alistSet, if_neg (by simp [hfresh])]
      have hdisj' : ∀ k ∈ (alistSet st.1 (key x) v).map Prod.fst,
          k ∉ l.map key := by
        intro k hk
        rw [hkeys'] at hk
        rcases List.mem_append.mp hk with h' | h'
        · exact fun hmem => hdisj k h'
            (by rw [List.map_cons]; exact List.mem_cons_of_mem _ hmem)
        · rw [List.mem_singleton] at h'
          exact h' ▸ hnodup.1
      obtain ⟨c1, c2⟩ := ih step (alistSet st.1 (key x) v, st.2 + v)
        hstep' hnodup.2 hdisj' heq'
      refine ⟨c1, fun k hk => ?_⟩
      rcases c2 k hk with h' | h'
      · rw [hkeys'] at h'
        rcases List.mem_append.mp h' with h'' | h''
        · exact Or.inl h''
        · rw [List.mem_singleton] at h''
          exact Or.inr (by rw [List.map_cons]; exact h'' ▸ List.mem_cons_self _ _)
      · exact Or.inr (by rw [List.map_cons]; exact List.mem_cons_of_mem _ h')

/-- The bridge between a key-distinct allocations dict and the result
rows built by filtering an id-distinct account list: the row quantities
sum to the dict sum. -/
theorem filter_getD_sum :
    ∀ (accounts : List Account) (m : List (String × ℚ)),
      (m.map Prod.fst).Nodup →
      (∀ p ∈ m, p.1 ∈ accounts.map Account.accountId) →
      (accounts.map Account.accountId).Nodup →
      ((accounts.filter (fun x => alistMem m x.accountId)).map
        (fun x => (alistGet m x.accountId).getD 0)).sum = alistSum m := by
  intro accounts
  induction accounts with
  | nil =>
    intro m _ hsub _
    cases m with
    | nil => rfl
    | cons p m' => simpa using hsub p (List.mem_cons_self _ _)
  | cons a rest ih =>
    intro m hkeys hsub hacc
    rw [List.map_cons, List.nodup_cons] at hacc
    by_cases hmem : alistMem m a.accountId
    · obtain ⟨v, hv⟩ := Option.isSome_iff_exists.mp hmem
      have hfilter : (a :: rest).filter (fun x => alistMem m x.accountId) =
          a :: rest.filter (fun x => alistMem m x.accountId) :=
        List.filter_cons_of_pos hmem
      rw [hfilter, List.map_cons, List.sum_cons, hv]
      have hkeysRem : ((alistRemove m a.accountId).map Prod.fst).Nodup :=
        hkeys.sublist (keys_alistRemove_sublist m a.accountId)
      have hsubRem : ∀ p ∈ alistRemove m a.accountId,
          p.1 ∈ rest.map Account.accountId := by
        intro p hp
        obtain ⟨hpm, hpne⟩ := mem_of_mem_alistRemove hp
        have := hsub p hpm
        rw [List.map_cons] at this
        rcases List.mem_cons.mp this with h' | h'
        · exact absurd h' hpne
        · exact h'
      have hagree : ∀ x ∈ rest,
          alistGet (alistRemove m a.accountId) x.accountId =
            alistGet m x.accountId := by
        intro x hx
        refine alistGet_remove_ne (fun he => ?_)
        exact hacc.1 (he ▸ List.mem_map.mpr ⟨x, hx, rfl⟩)
      have hfeq : rest.filter (fun x => alistMem m x.accountId) =
          rest.filter (fun x => alistMem (alistRemove m a.accountId) x.accountId) :=
        (List.filter_congr (fun x hx => by
          simp only [alistMem, hagree x hx])).symm
      have hmeq : (rest.filter (fun x =>
            alistMem (alistRemove m a.accountId) x.accountId)).map
            (fun x => (alistGet m x.accountId).getD 0) =
          (rest.filter (fun x =>
            alistMem (alistRemove m a.accountId) x.accountId)).map
            (fun x => (alistGet (alistRemove m a.accountId) x.accountId).getD 0) :=
        List.map_congr_left (fun x hx => by
          rw [hagree x (List.mem_filter.mp hx).1])
      rw [hfeq, hmeq, ih (alistRemove m a.accountId) hkeysRem hsubRem hacc.2,
        alistSum_remove_of_get hkeys hv]
      rfl
    · have hfilter : (a :: rest).filter (fun x => alistMem m x.accountId) =
          rest.filter (fun x => alistMem m x.accountId) :=
        List.filter_cons_of_neg (by simpa using hmem)
      rw [hfilter]
      have hsub' : ∀ p ∈ m, p.1 ∈ rest.map Account.accountId := by
        intro p hp
        have := hsub p hp
        rw [List.map_cons] at this
        rcases List.mem_cons.mp this with h' | h'
        · exfalso
          have : alistMem m a.accountId = true :=
            alistMem_iff_mem_keys.mpr (h' ▸ List.mem_map.mpr ⟨p, hp, rfl⟩)
          exact hmem this
        · exact h'
      exact ih m hkeys hsub' hacc.2

/-- Generic key-property tracking: a fold whose steps only `alistSet` at
keys satisfying `K` keeps every key satisfying `K`. -/
theorem foldl_keys_prop {σ α : Type} (proj : σ → List (String × ℚ))
    (K : String → Prop) :
    ∀ (l : List α) (step : σ → α → σ) (st : σ),
      (∀ st' x, x ∈ l → proj (step st' x) = proj st' ∨
        ∃ k v, K k ∧ proj (step st' x) = alistSet (proj st') k v) →
      (∀ k ∈ (proj st).map Prod.fst, K k) →
      ∀ k ∈ (proj (l.foldl step st)).map Prod.fst, K k := by
  intro l
  induction l with
  | nil =>
    intro step st _ h1
    exact h1
  | cons x l ih =>
    intro step st hstep h1
    rw [List.foldl_cons]
    have hstep' : ∀ st' y, y ∈ l → proj (step st' y) = proj st' ∨
        ∃ k v, K k ∧ proj (step st' y) = alistSet (proj st') k v :=
      fun st' y hy => hstep st' y (List.mem_cons_of_mem _ hy)
    rcases hstep st x (List.mem_cons_self _ _) with he | ⟨k, v, hK, he⟩
    · exact ih step (step st x) hstep' (he ▸ h1)
    · refine ih step (step st x) hstep' ?_
      intro k' hk'
      rw [he, map_fst_alistSet] at hk'
      by_cases hm : alistMem (proj st) k
      · rw [if_pos hm] at hk'
        exact h1 k' hk'
      · rw [if_neg (by simpa using hm)] at hk'
        rcases List.mem_append.mp hk' with h' | h'
        · exact h1 k' h'
        · rw [List.mem_singleton] at h'
          exact h' ▸ hK

/-- Keys facts for the final pro-rata allocations dict: the running
total equals the dict sum, the keys are duplicate-free, and every key is
an account id — all under id-distinct accounts. -/
theorem proRataAllocations_bridge {order : Order} {security : Security}
    {accounts : List Account} {baseMetric : String}
    {constraints : AllocationConstraints}
    (hacc : (accounts.map Account.accountId).Nodup) :
    (proRataAllocations order security accounts baseMetric constraints).2 =
      alistSum (proRataAllocations order security accounts baseMetric constraints).1 ∧
    ((proRataAllocations order security accounts baseMetric constraints).1.map
      Prod.fst).Nodup ∧
    ∀ k ∈ ((proRataAllocations order security accounts baseMetric constraints).1.map
      Prod.fst), k ∈ accounts.map Account.accountId := by
  have hmain := foldl_total_eq_sum Account.accountId accounts
    (proRataMainStep order security accounts baseMetric constraints) ([], 0)
    (fun st' x _ =>
      proRataMainStep_key_cases order security accounts baseMetric constraints st' x)
    hacc (by simp) (by simp [alistSum])
  have hmainNodup := foldl_keys_nodup Prod.fst accounts
    (proRataMainStep order security accounts baseMetric constraints) ([], 0)
    (fun st' x _ =>
      proRataMainStep_fst_cases order security accounts baseMetric constraints st' x)
    (by simp)
  have hmainSub : ∀ k ∈ ((proRataMainPass order security accounts baseMetric
      constraints).1.map Prod.fst), k ∈ accounts.map Account.accountId := by
    intro k hk
    rcases hmain.2 k hk with h' | h'
    · simp at h'
    · exact h'
  rw [proRataAllocations]
  by_cases hlt : (proRataMainPass order security accounts baseMetric constraints).2 <
      order.quantity
  · rw [if_pos hlt]
    simp only []
    refine ⟨trivial, ?_, ?_⟩
    · rw [distributeRemainder]
      by_cases hs : order.quantity -
          (proRataMainPass order security accounts baseMetric constraints).2 <
          security.minDenomination
      · rw [if_pos hs]
        exact hmainNodup
      · rw [if_neg hs]
        exact foldl_keys_nodup Prod.fst _ (remainderStep security constraints) _
          (fun st' x _ => (remainderStep_key_cases security constraints st' x).elim
            Or.inl (fun ⟨v, he⟩ => Or.inr ⟨x.accountId, v, he⟩))
          hmainNodup
    · rw [distributeRemainder]
      by_cases hs : order.quantity -
          (proRataMainPass order security accounts baseMetric constraints).2 <
          security.minDenomination
      · rw [if_pos hs]
        exact hmainSub
      · rw [if_neg hs]
        refine foldl_keys_prop Prod.fst (fun k => k ∈ accounts.map Account.accountId)
          _ (remainderStep security constraints) _
          (fun st' x hx => (remainderStep_key_cases security constraints st' x).elim
            Or.inl (fun ⟨v, he⟩ => Or.inr ⟨x.accountId, v, ?_, he⟩))
          hmainSub
        have hx' := mem_sortNavDesc hx
        exact List.mem_map.mpr ⟨x, (List.mem_filter.mp hx').1, rfl⟩
  · rw [if_neg hlt]
    exact ⟨hmain.1.symm, hmainNodup, hmainSub⟩

theorem handleUnallocated_keys_prop {unallocated : ℚ}
    {m : List (String × ℚ)} {accounts : List Account} {security : Security}
    {order : Order} {constraints : AllocationConstraints}
    (K : String → Prop)
    (hK : ∀ k ∈ m.map Prod.fst, K k) :
    ∀ k ∈ (handleUnallocated unallocated m accounts security order
      constraints).map Prod.fst, K k := by
  rw [handleUnallocated]
  by_cases hg : unallocated < security.minDenomination ∨ m = []
  · rw [if_pos hg]
    exact hK
  · rw [if_neg hg]
    exact foldl_keys_prop Prod.fst K m
      (unallocStep order security accounts constraints (alistSum m))
      (m, unallocated)
      (fun st' p hp =>
        (unallocStep_key_cases order security accounts constraints
          (alistSum m) st' p).elim Or.inl
          (fun h => Or.inr ⟨p.1, h.choose,
            hK p.1 (List.mem_map.mpr ⟨p, hp, rfl⟩), h.choose_spec⟩))
      hK

theorem handleUnallocated_keys_nodup {unallocated : ℚ}
    {m : List (String × ℚ)} {accounts : List Account} {security : Security}
    {order : Order} {constraints : AllocationConstraints}
    (hkeys : (m.map Prod.fst).Nodup) :
    ((handleUnallocated unallocated m accounts security order
      constraints).map Prod.fst).Nodup := by
  rw [handleUnallocated]
  by_cases hg : unallocated < security.minDenomination ∨ m = []
  · rw [if_pos hg]
    exact hkeys
  · rw [if_neg hg]
    exact foldl_keys_nodup Prod.fst m
      (unallocStep order security accounts constraints (alistSum m))
      (m, unallocated)
      (fun st' p _ =>
        (unallocStep_key_cases order security accounts constraints
          (alistSum m) st' p).elim Or.inl
          (fun h => Or.inr ⟨p.1, h.choose, h.choose_spec⟩))
      hkeys

/-- Keys facts for the final custom-weights allocations dict: the total
equals the dict sum and every key resolves in the account lookup. -/
theorem customAllocations_bridge {order : Order} {security : Security}
    {accounts : List Account} {weights : List (String × ℚ)}
    {constraints : AllocationConstraints}
    (hw : (weights.map Prod.fst).Nodup) :
    (customAllocations order security accounts weights constraints).2 =
      alistSum (customAllocations order security accounts weights constraints).1 ∧
    ((customAllocations order security accounts weights constraints).1.map
      Prod.fst).Nodup ∧
    ∀ k ∈ ((customAllocations order security accounts weights constraints).1.map
      Prod.fst), (lookupAccount accounts k).isSome := by
  have hmain := foldl_total_eq_sum Prod.fst weights
    (customMainStep order security accounts constraints) ([], 0)
    (fun st' p _ =>
      (customMainStep_key_cases order security accounts constraints st' p).elim
        Or.inl (fun h => Or.inr h.2))
    hw (by simp) (by simp [alistSum])
  have hmainNodup := foldl_keys_nodup Prod.fst weights
    (customMainStep order security accounts constraints) ([], 0)
    (fun st' p _ => customMainStep_fst_cases order security accounts constraints st' p)
    (by simp)
  have hmainLookup := foldl_keys_prop Prod.fst
    (fun k => (lookupAccount accounts k).isSome = true) weights
    (customMainStep order security accounts constraints) ([], 0)
    (fun st' p _ =>
      (customMainStep_key_cases order security accounts constraints st' p).elim
        (fun h => Or.inl (congrArg Prod.fst h))
        (fun h => Or.inr ⟨p.1, h.2.choose, h.1,
          congrArg Prod.fst h.2.choose_spec⟩))
    (by simp)
  rw [customAllocations]
  by_cases hlt : (customMainPass order security accounts weights constraints).2 <
      order.quantity
  · rw [if_pos hlt]
    simp only []
    exact ⟨trivial, handleUnallocated_keys_nodup hmainNodup,
      handleUnallocated_keys_prop _ hmainLookup⟩
  · rw [if_neg hlt]
    exact ⟨hmain.1.symm, hmainNodup, hmainLookup⟩

/-- The custom-weights result rows carry exactly the dict quantities. -/
theorem customRows_sum {order : Order} {security : Security}
    {accounts : List Account} {m : List (String × ℚ)}
    (hlookup : ∀ k ∈ m.map Prod.fst, (lookupAccount accounts k).isSome = true) :
    ((m.map (fun p =>
      match lookupAccount accounts p.1 with
      | some account => createAccountAllocation account p.2 security order
      | none => createAccountAllocation
          ⟨p.1, "", 0, 0, 0, 0, 0, 0, 0, none⟩ 0 security order)).map
      AccountAllocationResult.allocatedQuantity).sum = alistSum m := by
  rw [List.map_map]
  have hcongr : ∀ p ∈ m, (AccountAllocationResult.allocatedQuantity ∘ fun p =>
      match lookupAccount accounts p.1 with
      | some account => createAccountAllocation account p.2 security order
      | none => createAccountAllocation
          ⟨p.1, "", 0, 0, 0, 0, 0, 0, 0, none⟩ 0 security order) p = p.2 := by
    intro p hp
    have hsome := hlookup p.1 (List.mem_map.mpr ⟨p, hp, rfl⟩)
    cases hl : lookupAccount accounts p.1 with
    | none => rw [hl] at hsome; cases hsome
    | some account => simp [Function.comp, hl, createAccountAllocation]
  rw [List.map_congr_left hcongr]
  rfl

/-- Keys facts for the minimum-dispersion allocations dict. -/
theorem minDispMap_bridge {order : Order} {security : Security}
    {accounts : List Account} {constraints : AllocationConstraints}
    {rounded : List ℚ} :
    ((minDispAllocationsMap order security accounts constraints rounded).map
      Prod.fst).Nodup ∧
    ∀ k ∈ ((minDispAllocationsMap order security accounts constraints rounded).map
      Prod.fst), k ∈ accounts.map Account.accountId := by
  constructor
  · exact foldl_keys_nodup id (accounts.zip rounded)
      (minDispMapStep order security constraints) []
      (fun m' aq _ =>
        (minDispMapStep_key_cases order security constraints m' aq).elim Or.inl
          (fun h => Or.inr ⟨aq.1.accountId, h.choose, h.choose_spec⟩))
      (by simp)
  · exact foldl_keys_prop id (fun k => k ∈ accounts.map Account.accountId)
      (accounts.zip rounded) (minDispMapStep order security constraints) []
      (fun m' aq haq =>
        (minDispMapStep_key_cases order security constraints m' aq).elim Or.inl
          (fun h => Or.inr ⟨aq.1.accountId, h.choose,
            List.mem_map.mpr ⟨aq.1, (List.of_mem_zip haq).1, rfl⟩,
            h.choose_spec⟩))
      (by simp)

/-- The pro-rata/minimum-dispersion result rows, built by filtering
id-distinct accounts against a key-distinct allocations dict whose keys
are account ids, carry exactly the dict quantities. -/
theorem filter_rows_sum (accounts : List Account) (m : List (String × ℚ))
    (security : Security) (order : Order)
    (hkeys : (m.map Prod.fst).Nodup)
    (hsub : ∀ k ∈ m.map Prod.fst, k ∈ accounts.map Account.accountId)
    (hacc : (accounts.map Account.accountId).Nodup) :
    (((accounts.filter (fun x => alistMem m x.accountId)).map (fun x =>
      createAccountAllocation x ((alistGet m x.accountId).getD 0)
        security order)).map
      AccountAllocationResult.allocatedQuantity).sum = alistSum m := by
  rw [List.map_map]
  have hc : (AccountAllocationResult.allocatedQuantity ∘ fun x =>
      createAccountAllocation x ((alistGet m x.accountId).getD 0)
        security order) =
      fun x => (alistGet m x.accountId).getD 0 := rfl
  rw [hc]
  exact filter_getD_sum accounts m hkeys
    (fun p hp => hsub p.1 (List.mem_map.mpr ⟨p, hp, rfl⟩)) hacc

/-! ## Claim C5 -/

/-- C5: for every call to allocate under every policy, if the returned
errors list is non-empty then the allocations list is empty,
summary.total_allocated = 0, and summary.unallocated = order.quantity. -/
theorem C5_errors_imply_empty_result (order : Order) (security : Security)
    (accounts : List Account) (baseMetric : String)
    (weights : List (String × ℚ)) (constraints : AllocationConstraints)
    (opt : OptimizationResult) :
    ((proRataAllocate order security accounts baseMetric constraints).errors ≠ [] →
      (proRataAllocate order security accounts baseMetric constraints).allocations = [] ∧
      (proRataAllocate order security accounts baseMetric
        constraints).summary.totalAllocated = 0 ∧
      (proRataAllocate order security accounts baseMetric
        constraints).summary.unallocated = order.quantity) ∧
    ((customWeightsAllocate order security accounts weights constraints).errors ≠ [] →
      (customWeightsAllocate order security accounts weights constraints).allocations = [] ∧
      (customWeightsAllocate order security accounts weights
        constraints).summary.totalAllocated = 0 ∧
      (customWeightsAllocate order security accounts weights
        constraints).summary.unallocated = order.quantity) ∧
    ((minDispAllocate order security accounts constraints opt).errors ≠ [] →
      (minDispAllocate order security accounts constraints opt).allocations = [] ∧
      (minDispAllocate order security accounts constraints
        opt).summary.totalAllocated = 0 ∧
      (minDispAllocate order security accounts constraints
        opt).summary.unallocated = order.quantity) := by
  refine ⟨?_, ?_, ?_⟩
  · intro h
    by_cases hv : validateInputs order security accounts constraints = []
    · rw [proRataAllocate_of_valid hv] at h
      simp at h
    · rw [proRataAllocate_of_invalid hv]
      exact ⟨rfl, rfl, rfl⟩
  · intro h
    by_cases hv : validateInputs order security accounts constraints = []
    · by_cases hw : validateWeights weights = []
      · rw [customWeightsAllocate_of_valid hv hw] at h
        simp at h
      · rw [customWeightsAllocate_of_invalid_weights hv hw]
        exact ⟨rfl, rfl, rfl⟩
    · rw [customWeightsAllocate_of_invalid hv]
      exact ⟨rfl, rfl, rfl⟩
  · intro h
    by_cases hv : validateInputs order security accounts constraints = []
    · rw [minDispAllocate_of_valid hv] at h
      simp at h
    · rw [minDispAllocate_of_invalid hv]
      exact ⟨rfl, rfl, rfl⟩

/-! ## Claim C10 -/

theorem createAccountAllocation_sell {account : Account} {q : ℚ}
    {security : Security} {order : Order} (hside : order.side = "SELL") :
    (createAccountAllocation account q security order).cashUsed = 0 ∧
      (createAccountAllocation account q security order).postTradeCash =
        (createAccountAllocation account q security order).availableCash := by
  have hne : ¬ order.side = "BUY" := by
    rw [hside]
    decide
  simp [createAccountAllocation, hne]

/-- C10: for every SELL order, under every policy, every allocation
entry reports cash_used = 0 and post_trade_cash equal to the account's
pre-trade available_cash (the entry's `availableCash` field, which is
copied from the account) — sale proceeds are never credited. -/
theorem C10_sell_cash_model (order : Order) (security : Security)
    (accounts : List Account) (baseMetric : String)
    (weights : List (String × ℚ)) (constraints : AllocationConstraints)
    (opt : OptimizationResult) (hside : order.side = "SELL") :
    (∀ e, e ∈ (proRataAllocate order security accounts baseMetric
        constraints).allocations →
      e.cashUsed = 0 ∧ e.postTradeCash = e.availableCash) ∧
    (∀ e, e ∈ (customWeightsAllocate order security accounts weights
        constraints).allocations →
      e.cashUsed = 0 ∧ e.postTradeCash = e.availableCash) ∧
    (∀ e, e ∈ (minDispAllocate order security accounts constraints
        opt).allocations →
      e.cashUsed = 0 ∧ e.postTradeCash = e.availableCash) := by
  refine ⟨?_, ?_, ?_⟩
  · intro e he
    by_cases hv : validateInputs order security accounts constraints = []
    · rw [proRataAllocate_of_valid hv] at he
      simp only [List.mem_map] at he
      obtain ⟨x, _, rfl⟩ := he
      exact createAccountAllocation_sell hside
    · rw [proRataAllocate_of_invalid hv] at he
      cases he
  · intro e he
    by_cases hv : validateInputs order security accounts constraints = []
    · by_cases hw : validateWeights weights = []
      · rw [customWeightsAllocate_of_valid hv hw] at he
        simp only [List.mem_map] at he
        obtain ⟨p, _, rfl⟩ := he
        cases lookupAccount accounts p.1 with
        | none => exact createAccountAllocation_sell hside
        | some account => exact createAccountAllocation_sell hside
      · rw [customWeightsAllocate_of_invalid_weights hv hw] at he
        cases he
    · rw [customWeightsAllocate_of_invalid hv] at he
      cases he
  · intro e he
    by_cases hv : validateInputs order security accounts constraints = []
    · rw [minDispAllocate_of_valid hv] at he
      simp only [List.mem_map] at he
      obtain ⟨x, _, rfl⟩ := he
      exact createAccountAllocation_sell hside
    · rw [minDispAllocate_of_invalid hv] at he
      cases he

/-! ## Claim C4 -/

/-- C4 (amended): whenever the solver reports non-convergence or raises
(`opt.success = false`), the minimum-dispersion result is exactly the
result computed from the pro-rata-by-NAV fallback vector (rounded to
denomination and feasibility-filtered), but the metadata records
`optimization_success = true` — the fallback outcome's `success := true`
flag overwrites the failure before the metadata is written. -/
theorem C4_fallback_amended (order : Order) (security : Security)
    (accounts : List Account) (constraints : AllocationConstraints)
    (opt : OptimizationResult) (h : opt.success = false) :
    minDispAllocate order security accounts constraints opt =
      minDispAllocate order security accounts constraints
        (fallbackProrata order accounts) ∧
    (validateInputs order security accounts constraints = [] →
      (minDispAllocate order security accounts constraints
        opt).optimizationSuccess = some true) := by
  have hres : resolveSolver order accounts opt = fallbackProrata order accounts := by
    rw [resolveSolver, h]
    simp
  have hres2 : resolveSolver order accounts (fallbackProrata order accounts) =
      fallbackProrata order accounts := by
    rw [resolveSolver]
    simp [fallbackProrata]
  constructor
  · simp only [minDispAllocate, hres, hres2]
  · intro hv
    rw [minDispAllocate_of_valid hv, hres]
    simp [fallbackProrata]

/-! ## Claim C7 -/

/-- C7: custom-weights validation.  With base validation passing: a
non-empty weight dict with all values in [0,1] whose sum deviates from 1
by more than 10⁻³ yields exactly the single fatal `INVALID_WEIGHT_SUM`
error and no allocations; an empty dict yields `NO_WEIGHTS`; any
negative weight yields `NEGATIVE_WEIGHT`; any weight above one yields
`WEIGHT_EXCEEDS_ONE` — all fatal (empty allocations). -/
theorem C7_weight_validation (order : Order) (security : Security)
    (accounts : List Account) (weights : List (String × ℚ))
    (constraints : AllocationConstraints)
    (hv : validateInputs order security accounts constraints = []) :
    ((weights ≠ [] ∧ (∀ p ∈ weights, 0 ≤ p.2 ∧ p.2 ≤ 1) ∧
        |alistSum weights - 1| > 1/1000) →
      (customWeightsAllocate order security accounts weights constraints).errors =
          [⟨.invalidWeightSum⟩] ∧
        (customWeightsAllocate order security accounts weights
          constraints).allocations = []) ∧
    (weights = [] →
      (customWeightsAllocate order security accounts weights constraints).errors =
          [⟨.noWeights⟩] ∧
        (customWeightsAllocate order security accounts weights
          constraints).allocations = []) ∧
    ((∃ p ∈ weights, p.2 < 0) →
      (⟨.negativeWeight⟩ : AllocationError) ∈
          (customWeightsAllocate order security accounts weights constraints).errors ∧
        (customWeightsAllocate order security accounts weights
          constraints).allocations = []) ∧
    ((∃ p ∈ weights, p.2 > 1) →
      (⟨.weightExceedsOne⟩ : AllocationError) ∈
          (customWeightsAllocate order security accounts weights constraints).errors ∧
        (customWeightsAllocate order security accounts weights
          constraints).allocations = []) := by
  refine ⟨?_, ?_, ?_, ?_⟩
  · rintro ⟨hne, hrange, hsum⟩
    have hval : validateWeights weights = [⟨.invalidWeightSum⟩] := by
      rw [validateWeights, if_neg hne, if_pos hsum]
      have hflat : weights.flatMap (fun p =>
          if p.2 < 0 then [(⟨.negativeWeight⟩ : AllocationError)]
          else if p.2 > 1 then [⟨.weightExceedsOne⟩]
          else []) = [] := by
        rw [List.flatMap_eq_nil_iff]
        intro p hp
        rw [if_neg (not_lt.mpr (hrange p hp).1), if_neg (not_lt.mpr (hrange p hp).2)]
      rw [hflat, List.append_nil]
    rw [customWeightsAllocate_of_invalid_weights hv (by rw [hval]; decide)]
    exact ⟨hval, rfl⟩
  · intro he
    have hval : validateWeights weights = [⟨.noWeights⟩] := by
      rw [validateWeights, if_pos he]
    rw [customWeightsAllocate_of_invalid_weights hv (by rw [hval]; decide)]
    exact ⟨hval, rfl⟩
  · rintro ⟨p, hp, hneg⟩
    have hmem : (⟨.negativeWeight⟩ : AllocationError) ∈ validateWeights weights := by
      rw [validateWeights, if_neg (List.ne_nil_of_mem hp)]
      refine List.mem_append.mpr (Or.inr ?_)
      refine List.mem_flatMap.mpr ⟨p, hp, ?_⟩
      rw [if_pos hneg]
      exact List.mem_singleton.mpr rfl
    rw [customWeightsAllocate_of_invalid_weights hv (List.ne_nil_of_mem hmem)]
    exact ⟨hmem, rfl⟩
  · rintro ⟨p, hp, hgt⟩
    have hmem : (⟨.weightExceedsOne⟩ : AllocationError) ∈ validateWeights weights := by
      rw [validateWeights, if_neg (List.ne_nil_of_mem hp)]
      refine List.mem_append.mpr (Or.inr ?_)
      refine List.mem_flatMap.mpr ⟨p, hp, ?_⟩
      have hnx : ¬ p.2 < 0 := not_lt.mpr (by linarith)
      rw [if_neg hnx, if_pos hgt]
      exact List.mem_singleton.mpr rfl
    rw [customWeightsAllocate_of_invalid_weights hv (List.ne_nil_of_mem hmem)]
    exact ⟨hmem, rfl⟩

/-! ## Claim C8 -/

/-- C8 (amended): in the pro-rata engine, an `INSUFFICIENT_CASH` warning
is emitted for every account absent from the final allocations dict
whenever `respect_cash` is set and the account's cash is below
`min_allocation * security.price` — regardless of the order side (the
source checks neither the side nor the order price override here). -/
theorem C8_insufficient_cash_amended (order : Order) (security : Security)
    (accounts : List Account) (baseMetric : String)
    (constraints : AllocationConstraints) (account : Account)
    (hv : validateInputs order security accounts constraints = [])
    (ha : account ∈ accounts)
    (hmem : alistMem (proRataAllocations order security accounts baseMetric
      constraints).1 account.accountId = false)
    (hrc : constraints.respectCash = true)
    (hcash : account.availableCash < constraints.minAllocation * security.price) :
    (⟨.insufficientCash, some account.accountId⟩ : AllocationWarning) ∈
      (proRataAllocate order security accounts baseMetric constraints).warnings := by
  rw [proRataAllocate_of_valid hv]
  simp only []
  rw [createAllocationWarnings]
  refine List.mem_flatMap.mpr ⟨account, ha, ?_⟩
  rw [if_pos ⟨by simp [hmem], hrc, hcash⟩]
  exact List.mem_append.mpr (Or.inl (List.mem_singleton.mpr rfl))

/-! ## Concrete witnesses and counterexamples

Batteries marks the `Rat` arithmetic operations `@[irreducible]`, which
blocks `decide`-style evaluation of the engines on concrete inputs (the
kernel itself reduces them fine).  Semireducibility is restored locally
in this section so concrete runs of the engines can be checked by
`decide`. -/

/-! ## Helper lemmas: lot multiples and minimum allocations (claim C6) -/

theorem isLotMultiple_add_lot {q r L : ℚ} (hq : isLotMultiple q L)
    (hr : isLotMultiple r L) : isLotMultiple (q + r) L := by
  obtain ⟨k, hk⟩ := hq
  obtain ⟨j, hj⟩ := hr
  exact ⟨k + j, by rw [hk, hj]; push_cast; ring⟩

/-- Generic fold invariant: a state property preserved by every step
holds at the end of the fold. -/
theorem foldl_state_invariant {σ α : Type} (Q : σ → Prop) :
    ∀ (l : List α) (step : σ → α → σ) (st : σ),
      (∀ st' x, x ∈ l → Q st' → Q (step st' x)) → Q st →
      Q (l.foldl step st) := by
  intro l
  induction l with
  | nil =>
    intro step st _ h
    exact h
  | cons x l ih =>
    intro step st hstep h
    rw [List.foldl_cons]
    exact ih step (step st x)
      (fun st' y hy => hstep st' y (List.mem_cons_of_mem _ hy))
      (hstep st x (List.mem_cons_self _ _) h)

/-- On a BUY order, `_apply_constraints`'s side block either passes the
quantity through or returns a denomination multiple at or above the
minimum allocation. -/
theorem applySideConstraints_buy_lot {account : Account} {security : Security}
    {order : Order} {constraints : AllocationConstraints} {a0 a1 : ℚ}
    (hbuy : order.side = "BUY")
    (h : applySideConstraints account security order constraints a0 = some a1) :
    a1 = a0 ∨ (isLotMultiple a1 security.minDenomination ∧
      constraints.minAllocation ≤ a1) := by
  rw [applySideConstraints, hbuy] at h
  by_cases hrc : constraints.respectCash
  · rw [if_pos ⟨rfl, hrc⟩] at h
    by_cases hover : a0 * effectivePrice order security > account.availableCash
    · rw [if_pos hover] at h
      by_cases haff : roundToDenom (account.availableCash /
          effectivePrice order security) security.minDenomination <
          constraints.minAllocation
      · rw [if_pos haff] at h
        cases h
      · rw [if_neg haff] at h
        refine Or.inr ?_
        rw [← Option.some_inj.mp h]
        exact ⟨roundToDenom_isLotMultiple _ _, not_lt.mp haff⟩
    · rw [if_neg hover] at h
      exact Or.inl (Option.some_inj.mp h).symm
  · rw [if_neg (fun hc => hrc hc.2)] at h
    rw [if_neg (by decide : ¬ ("BUY" : String) = "SELL")] at h
    exact Or.inl (Option.some_inj.mp h).symm

/-- `pro_rata._apply_constraints` on a BUY order with rounding enabled
and no concentration cap returns zero or a denomination multiple at or
above the minimum allocation. -/
theorem proRataApplyConstraints_lot {account : Account} {targetQuantity : ℚ}
    {security : Security} {order : Order} {constraints : AllocationConstraints}
    (hflag : constraints.roundToDenomination = true)
    (hbuy : order.side = "BUY")
    (hmcnone : constraints.maxConcentration = none) :
    proRataApplyConstraints account targetQuantity security order constraints = 0 ∨
      (isLotMultiple (proRataApplyConstraints account targetQuantity security
        order constraints) security.minDenomination ∧
       constraints.minAllocation ≤
        proRataApplyConstraints account targetQuantity security order
          constraints) := by
  rw [proRataApplyConstraints]
  simp only [hflag, if_true]
  by_cases hmin : roundToDenom targetQuantity security.minDenomination <
      constraints.minAllocation
  · rw [if_pos hmin]
    exact Or.inl rfl
  · rw [if_neg hmin]
    cases hside : applySideConstraints account security order constraints
        (roundToDenom targetQuantity security.minDenomination) with
    | none =>
      simp only [hside]
      exact Or.inl trivial
    | some a1 =>
      simp only [hside, proRataConcStep, hmcnone]
      refine Or.inr ?_
      rcases applySideConstraints_buy_lot hbuy hside with he | hP
      · rw [he]
        exact ⟨roundToDenom_isLotMultiple _ _, not_lt.mp hmin⟩
      · exact hP

/-- `custom_weights._apply_constraints` (quantity component) on a BUY
order with rounding enabled returns zero or a denomination multiple at
or above the minimum allocation. -/
theorem customApplyConstraints_lot {account : Account} {targetQuantity : ℚ}
    {security : Security} {order : Order} {constraints : AllocationConstraints}
    (hflag : constraints.roundToDenomination = true)
    (hbuy : order.side = "BUY") :
    customApplyConstraints account targetQuantity security order constraints = 0 ∨
      (isLotMultiple (customApplyConstraints account targetQuantity security
        order constraints) security.minDenomination ∧
       constraints.minAllocation ≤
        customApplyConstraints account targetQuantity security order
          constraints) := by
  rw [customApplyConstraints]
  simp only [hflag, if_true]
  by_cases hmin : roundToDenom targetQuantity security.minDenomination <
      constraints.minAllocation
  · rw [if_pos hmin]
    exact Or.inl rfl
  · rw [if_neg hmin]
    cases hside : applySideConstraints account security order constraints
        (roundToDenom targetQuantity security.minDenomination) with
    | none =>
      simp only [hside]
      exact Or.inl trivial
    | some a1 =>
      simp only [hside]
      refine Or.inr ?_
      rcases applySideConstraints_buy_lot hbuy hside with he | hP
      · rw [he]
        exact ⟨roundToDenom_isLotMultiple _ _, not_lt.mp hmin⟩
      · exact hP

/-- Every value of the pro-rata main-pass dict is a denomination
multiple at or above the minimum allocation (BUY, rounding on, no
concentration cap). -/
theorem proRataMainPass_values {order : Order} {security : Security}
    {accounts : List Account} {baseMetric : String}
    {constraints : AllocationConstraints}
    (hflag : constraints.roundToDenomination = true)
    (hbuy : order.side = "BUY")
    (hmcnone : constraints.maxConcentration = none) :
    ∀ w ∈ (proRataMainPass order security accounts baseMetric
      constraints).1.map Prod.snd,
      isLotMultiple w security.minDenomination ∧
        constraints.minAllocation ≤ w := by
  rw [proRataMainPass]
  refine foldl_preserves_values Prod.fst _ accounts
    (proRataMainStep order security accounts baseMetric constraints)
    ([], 0) ?_ (by simp)
  intro st' x _ _
  rw [proRataMainStep]
  by_cases hw0 : proRataWeight baseMetric accounts x = 0
  · rw [if_pos hw0]
    exact Or.inl rfl
  · rw [if_neg hw0]
    by_cases hpos : proRataApplyConstraints x
        (order.quantity * proRataWeight baseMetric accounts x) security order
        constraints > 0
    · rw [if_pos hpos]
      refine Or.inr ⟨x.accountId, _, ?_, rfl⟩
      rcases @proRataApplyConstraints_lot x
          (order.quantity * proRataWeight baseMetric accounts x) security order
          constraints hflag hbuy hmcnone with h0 | hP
      · rw [h0] at hpos
        exact absurd hpos (lt_irrefl 0)
      · exact hP
    · rw [if_neg hpos]
      exact Or.inl rfl

/-- Every value of the custom-weights main-pass dict is a denomination
multiple at or above the minimum allocation (BUY, rounding on). -/
theorem customMainPass_values {order : Order} {security : Security}
    {accounts : List Account} {weights : List (String × ℚ)}
    {constraints : AllocationConstraints}
    (hflag : constraints.roundToDenomination = true)
    (hbuy : order.side = "BUY") :
    ∀ w ∈ (customMainPass order security accounts weights
      constraints).1.map Prod.snd,
      isLotMultiple w security.minDenomination ∧
        constraints.minAllocation ≤ w := by
  rw [customMainPass]
  refine foldl_preserves_values Prod.fst _ weights
    (customMainStep order security accounts constraints)
    ([], 0) ?_ (by simp)
  intro st' p _ _
  rw [customMainStep]
  cases hlook : lookupAccount accounts p.1 with
  | none => exact Or.inl rfl
  | some account =>
    simp only []
    by_cases hpos : customApplyConstraints account (order.quantity * p.2)
        security order constraints > 0
    · rw [if_pos hpos]
      refine Or.inr ⟨p.1, _, ?_, rfl⟩
      rcases @customApplyConstraints_lot account (order.quantity * p.2)
          security order constraints hflag hbuy with h0 | hP
      · rw [h0] at hpos
        exact absurd hpos (lt_irrefl 0)
      · exact hP
    · rw [if_neg hpos]
      exact Or.inl rfl

/-- `_distribute_remainder` preserves "every value is a denomination
multiple at or above the minimum allocation": it only ever adds one
denomination to an existing entry. -/
theorem distributeRemainder_values {remainder : ℚ}
    {m : List (String × ℚ)} {accounts : List Account}
    {security : Security} {constraints : AllocationConstraints}
    (hL : 0 ≤ security.minDenomination)
    (hvals : ∀ w ∈ m.map Prod.snd,
      isLotMultiple w security.minDenomination ∧
        constraints.minAllocation ≤ w) :
    ∀ w ∈ (distributeRemainder remainder m accounts security
      constraints).map Prod.snd,
      isLotMultiple w security.minDenomination ∧
        constraints.minAllocation ≤ w := by
  rw [distributeRemainder]
  by_cases hrem : remainder < security.minDenomination
  · rw [if_pos hrem]
    exact hvals
  · rw [if_neg hrem]
    have hinv := foldl_state_invariant
      (fun st : List (String × ℚ) × ℚ =>
        (∀ w ∈ st.1.map Prod.snd,
          isLotMultiple w security.minDenomination ∧
            constraints.minAllocation ≤ w) ∧
        st.1.map Prod.fst = m.map Prod.fst)
      (sortNavDesc (accounts.filter (fun a => alistMem m a.accountId)))
      (remainderStep security constraints) (m, remainder) ?_ ⟨hvals, rfl⟩
    · exact hinv.1
    · intro st' x hx hQ
      obtain ⟨hv, hk⟩ := hQ
      rw [remainderStep]
      by_cases hg : st'.2 < security.minDenomination
      · rw [if_pos hg]
        exact ⟨hv, hk⟩
      · rw [if_neg hg]
        have hxmem : alistMem m x.accountId = true := by
          have hx' := mem_sortNavDesc hx
          exact (List.mem_filter.mp hx').2
        have hxst : alistMem st'.1 x.accountId = true := by
          rw [alistMem_iff_mem_keys, hk]
          exact alistMem_iff_mem_keys.mp hxmem
        obtain ⟨v, hvget⟩ := Option.isSome_iff_exists.mp hxst
        have hPv := hv v (snd_mem_of_get hvget)
        by_cases hrc : constraints.respectCash
        · rw [if_pos hrc]
          by_cases hfits : ((alistGet st'.1 x.accountId).getD 0 +
              security.minDenomination) * security.price ≤ x.availableCash
          · rw [if_pos hfits]
            refine ⟨?_, ?_⟩
            · intro w hw
              rcases mem_snd_alistSet hw with he | hmem
              · subst he
                simp only [hvget, Option.getD_some]
                exact ⟨isLotMultiple_add hPv.1,
                  le_trans hPv.2 (by linarith)⟩
              · exact hv w hmem
            · rw [map_fst_alistSet, if_pos hxst]
              exact hk
          · rw [if_neg hfits]
            exact ⟨hv, hk⟩
        · rw [if_neg hrc]
          exact ⟨hv, hk⟩

/-- `_handle_unallocated` preserves "every value is a denomination
multiple at or above the minimum allocation": an entry only ever grows
by a rounded (hence multiple) additional amount of at least one
denomination. -/
theorem handleUnallocated_values {unallocated : ℚ}
    {m : List (String × ℚ)} {accounts : List Account} {security : Security}
    {order : Order} {constraints : AllocationConstraints}
    (hL : 0 ≤ security.minDenomination)
    (hvals : ∀ w ∈ m.map Prod.snd,
      isLotMultiple w security.minDenomination ∧
        constraints.minAllocation ≤ w) :
    ∀ w ∈ (handleUnallocated unallocated m accounts security order
      constraints).map Prod.snd,
      isLotMultiple w security.minDenomination ∧
        constraints.minAllocation ≤ w := by
  rw [handleUnallocated]
  by_cases hg : unallocated < security.minDenomination ∨ m = []
  · rw [if_pos hg]
    exact hvals
  · rw [if_neg hg]
    refine foldl_preserves_values Prod.fst _ m
      (unallocStep order security accounts constraints (alistSum m))
      (m, unallocated) ?_ hvals
    intro st' p hp _
    rcases unallocStep_cases order security accounts constraints
        (alistSum m) st' p with he | ⟨_, hge, he⟩
    · exact Or.inl (congrArg Prod.fst he)
    · refine Or.inr ⟨p.1, _, ?_, congrArg Prod.fst he⟩
      have hPp := hvals p.2 (List.mem_map.mpr ⟨p, hp, rfl⟩)
      exact ⟨isLotMultiple_add_lot hPp.1 (roundToDenom_isLotMultiple _ _),
        le_trans hPp.2 (by linarith)⟩

/-- Every value of the final pro-rata allocations dict is a denomination
multiple at or above the minimum allocation (BUY, rounding on, no
concentration cap). -/
theorem proRataAllocations_values {order : Order} {security : Security}
    {accounts : List Account} {baseMetric : String}
    {constraints : AllocationConstraints}
    (hL : 0 ≤ security.minDenomination)
    (hflag : constraints.roundToDenomination = true)
    (hbuy : order.side = "BUY")
    (hmcnone : constraints.maxConcentration = none) :
    ∀ w ∈ (proRataAllocations order security accounts baseMetric
      constraints).1.map Prod.snd,
      isLotMultiple w security.minDenomination ∧
        constraints.minAllocation ≤ w := by
  have hmain := @proRataMainPass_values order security accounts baseMetric
    constraints hflag hbuy hmcnone
  rw [proRataAllocations]
  by_cases hlt : (proRataMainPass order security accounts baseMetric
      constraints).2 < order.quantity
  · rw [if_pos hlt]
    exact distributeRemainder_values hL hmain
  · rw [if_neg hlt]
    exact hmain

/-- Every value of the final custom-weights allocations dict is a
denomination multiple at or above the minimum allocation (BUY, rounding
on). -/
theorem customAllocations_values {order : Order} {security : Security}
    {accounts : List Account} {weights : List (String × ℚ)}
    {constraints : AllocationConstraints}
    (hL : 0 ≤ security.minDenomination)
    (hflag : constraints.roundToDenomination = true)
    (hbuy : order.side = "BUY") :
    ∀ w ∈ (customAllocations order security accounts weights
      constraints).1.map Prod.snd,
      isLotMultiple w security.minDenomination ∧
        constraints.minAllocation ≤ w := by
  have hmain := @customMainPass_values order security accounts weights
    constraints hflag hbuy
  rw [customAllocations]
  by_cases hlt : (customMainPass order security accounts weights
      constraints).2 < order.quantity
  · rw [if_pos hlt]
    exact handleUnallocated_values hL hmain
  · rw [if_neg hlt]
    exact hmain

/-- Every value of the minimum-dispersion allocations dict built from a
vector of denomination multiples is a denomination multiple at or above
the minimum allocation. -/
theorem minDispMap_values {order : Order} {security : Security}
    {accounts : List Account} {constraints : AllocationConstraints}
    {rounded : List ℚ}
    (hr : ∀ w ∈ rounded, isLotMultiple w security.minDenomination) :
    ∀ w ∈ (minDispAllocationsMap order security accounts constraints
      rounded).map Prod.snd,
      isLotMultiple w security.minDenomination ∧
        constraints.minAllocation ≤ w := by
  rw [minDispAllocationsMap]
  refine foldl_preserves_values id _ (accounts.zip rounded)
    (minDispMapStep order security constraints) [] ?_ (by simp)
  intro m' aq haq _
  rw [minDispMapStep]
  by_cases hge : aq.2 ≥ constraints.minAllocation
  · rw [if_pos hge]
    simp only []
    by_cases hfq : applyFinalConstraints aq.1 aq.2 security order
        constraints > 0
    · rw [if_pos hfq]
      refine Or.inr ⟨aq.1.accountId, _, ?_, rfl⟩
      rcases applyFinalConstraints_eq aq.1 aq.2 security order constraints with
        he | he
      · rw [he]
        exact ⟨hr aq.2 (List.of_mem_zip haq).2, hge⟩
      · rw [he] at hfq
        exact absurd hfq (lt_irrefl 0)
    · rw [if_neg hfq]
      exact Or.inl rfl
  · rw [if_neg hge]
    exact Or.inl rfl

/-! ## Claim C6 -/

/-- C6 (amended): restricted to BUY orders with rounding to
denomination enabled and no concentration cap, every allocated_quantity
in every result row of every policy is 0 or is simultaneously an
integer multiple of security.min_denomination and at least
constraints.min_allocation.  (The unrestricted claim fails: the
concentration cap can round an allocation down to a nonzero quantity
below min_allocation — see the counterexample.) -/
theorem C6_lot_minimum_amended (order : Order) (security : Security)
    (accounts : List Account) (baseMetric : String)
    (weights : List (String × ℚ)) (constraints : AllocationConstraints)
    (opt : OptimizationResult)
    (hL : 0 ≤ security.minDenomination)
    (hflag : constraints.roundToDenomination = true)
    (hbuy : order.side = "BUY")
    (hmcnone : constraints.maxConcentration = none) :
    (∀ r ∈ (proRataAllocate order security accounts baseMetric
        constraints).allocations,
      r.allocatedQuantity = 0 ∨
        (isLotMultiple r.allocatedQuantity security.minDenomination ∧
          constraints.minAllocation ≤ r.allocatedQuantity)) ∧
    (∀ r ∈ (customWeightsAllocate order security accounts weights
        constraints).allocations,
      r.allocatedQuantity = 0 ∨
        (isLotMultiple r.allocatedQuantity security.minDenomination ∧
          constraints.minAllocation ≤ r.allocatedQuantity)) ∧
    (∀ r ∈ (minDispAllocate order security accounts constraints
        opt).allocations,
      r.allocatedQuantity = 0 ∨
        (isLotMultiple r.allocatedQuantity security.minDenomination ∧
          constraints.minAllocation ≤ r.allocatedQuantity)) := by
  refine ⟨?_, ?_, ?_⟩
  · by_cases hv : validateInputs order security accounts constraints = []
    · rw [proRataAllocate_of_valid hv]
      intro r hr
      obtain ⟨x, hx, rfl⟩ := List.mem_map.mp hr
      have hxm : alistMem (proRataAllocations order security accounts
          baseMetric constraints).1 x.accountId = true :=
        (List.mem_filter.mp hx).2
      obtain ⟨v, hvget⟩ := Option.isSome_iff_exists.mp hxm
      have hP := @proRataAllocations_values order security accounts baseMetric
        constraints hL hflag hbuy hmcnone v (snd_mem_of_get hvget)
      have hq : (createAccountAllocation x ((alistGet (proRataAllocations order
          security accounts baseMetric constraints).1 x.accountId).getD 0)
          security order).allocatedQuantity = v := by
        rw [hvget]
        rfl
      rw [hq]
      exact Or.inr hP
    · intro r hr
      rw [proRataAllocate_of_invalid hv] at hr
      simp [errorResult] at hr
  · by_cases hv : validateInputs order security accounts constraints = []
    · by_cases hwv : validateWeights weights = []
      · rw [customWeightsAllocate_of_valid hv hwv]
        intro r hr
        obtain ⟨p, hp, rfl⟩ := List.mem_map.mp hr
        cases hlook : lookupAccount accounts p.1 with
        | none =>
          simp only [hlook]
          exact Or.inl rfl
        | some account =>
          simp only [hlook]
          have hP := @customAllocations_values order security accounts weights
            constraints hL hflag hbuy p.2 (List.mem_map.mpr ⟨p, hp, rfl⟩)
          exact Or.inr hP
      · intro r hr
        rw [customWeightsAllocate_of_invalid_weights hv hwv] at hr
        simp [errorResult] at hr
    · intro r hr
      rw [customWeightsAllocate_of_invalid hv] at hr
      simp [errorResult] at hr
  · by_cases hv : validateInputs order security accounts constraints = []
    · rw [minDispAllocate_of_valid hv]
      intro r hr
      obtain ⟨x, hx, rfl⟩ := List.mem_map.mp hr
      have hxm : alistMem (minDispAllocationsMap order security accounts
          constraints (roundAllocations (resolveSolver order accounts
            opt).allocations security.minDenomination order.quantity))
          x.accountId = true :=
        (List.mem_filter.mp hx).2
      obtain ⟨v, hvget⟩ := Option.isSome_iff_exists.mp hxm
      have hP := @minDispMap_values order security accounts constraints
        (roundAllocations (resolveSolver order accounts opt).allocations
          security.minDenomination order.quantity)
        roundAllocations_multiple v (snd_mem_of_get hvget)
      have hq : (createAccountAllocation x ((alistGet (minDispAllocationsMap
          order security accounts constraints (roundAllocations
            (resolveSolver order accounts opt).allocations
            security.minDenomination order.quantity)) x.accountId).getD 0)
          security order).allocatedQuantity = v := by
        rw [hvget]
        rfl
      rw [hq]
      exact Or.inr hP
    · intro r hr
      rw [minDispAllocate_of_invalid hv] at hr
      simp [errorResult] at hr

/-! ## Claim C1 -/

/-- C1 (amended): the total never exceeds the order quantity in
error-free results, under a positive minimum denomination, dict-shaped
inputs (distinct account ids and weight keys), nonnegative cash and
base metrics, positive concentration caps when set, weights summing to
at most 1 (the validator's 0.001 tolerance admits weight sums above 1,
for which the bound fails — see the counterexample), and a solver
outcome that is entrywise nonnegative and sums to at most the order
quantity. -/
theorem C1_sum_amended (order : Order) (security : Security)
    (accounts : List Account) (baseMetric : String)
    (weights : List (String × ℚ)) (constraints : AllocationConstraints)
    (opt : OptimizationResult)
    (hL : 0 < security.minDenomination)
    (hacc : (accounts.map Account.accountId).Nodup)
    (hcash : ∀ a ∈ accounts, 0 ≤ a.availableCash)
    (hmetric : ∀ a ∈ accounts, 0 ≤ metricValue baseMetric a)
    (hmc : ∀ mc, constraints.maxConcentration = some mc → 0 < mc)
    (hwkeys : (weights.map Prod.fst).Nodup)
    (hwsum : alistSum weights ≤ 1)
    (hx : ∀ x ∈ (resolveSolver order accounts opt).allocations, 0 ≤ x)
    (hxsum : (resolveSolver order accounts opt).allocations.sum ≤
      order.quantity) :
    ((proRataAllocate order security accounts baseMetric
        constraints).errors = [] →
      ((proRataAllocate order security accounts baseMetric
        constraints).allocations.map
        AccountAllocationResult.allocatedQuantity).sum ≤ order.quantity) ∧
    ((customWeightsAllocate order security accounts weights
        constraints).errors = [] →
      ((customWeightsAllocate order security accounts weights
        constraints).allocations.map
        AccountAllocationResult.allocatedQuantity).sum ≤ order.quantity) ∧
    ((minDispAllocate order security accounts constraints
        opt).errors = [] →
      ((minDispAllocate order security accounts constraints
        opt).allocations.map
        AccountAllocationResult.allocatedQuantity).sum ≤ order.quantity) := by
  refine ⟨?_, ?_, ?_⟩
  · intro herr
    by_cases hv : validateInputs order security accounts constraints = []
    · obtain ⟨-, hq, hp, hmin⟩ := validateInputs_eq_nil hv
      obtain ⟨ht, hnodup, hsub⟩ :=
        @proRataAllocations_bridge order security accounts baseMetric
          constraints hacc
      have hle := (@proRataAllocations_sum_le order security accounts
        baseMetric constraints hL hq hp hmin hmc hcash hmetric).1
      rw [proRataAllocate_of_valid hv]
      exact (filter_rows_sum accounts _ security order hnodup hsub
        hacc).trans_le hle
    · rw [proRataAllocate_of_invalid hv] at herr
      simp [errorResult] at herr
      exact absurd herr hv
  · intro herr
    by_cases hv : validateInputs order security accounts constraints = []
    · by_cases hwv : validateWeights weights = []
      · obtain ⟨-, hq, hp, hmin⟩ := validateInputs_eq_nil hv
        obtain ⟨-, -, hwb⟩ := validateWeights_eq_nil hwv
        have hw0 : ∀ p ∈ weights, 0 ≤ p.2 := fun p hp' => (hwb p hp').1
        obtain ⟨ht, hnodup, hlookup⟩ :=
          @customAllocations_bridge order security accounts weights
            constraints hwkeys
        have hle := (@customAllocations_sum_le order security accounts
          weights constraints hL hq hp hmin hcash hw0 hwsum).1
        rw [customWeightsAllocate_of_valid hv hwv]
        exact (customRows_sum hlookup).trans_le hle
      · rw [customWeightsAllocate_of_invalid_weights hv hwv] at herr
        simp [errorResult] at herr
        exact absurd herr hwv
    · rw [customWeightsAllocate_of_invalid hv] at herr
      simp [errorResult] at herr
      exact absurd herr hv
  · intro herr
    by_cases hv : validateInputs order security accounts constraints = []
    · obtain ⟨hnodup, hsub⟩ :=
        @minDispMap_bridge order security accounts constraints
          (roundAllocations (resolveSolver order accounts opt).allocations
            security.minDenomination order.quantity)
      have hr0 : ∀ w ∈ roundAllocations
          (resolveSolver order accounts opt).allocations
          security.minDenomination order.quantity, 0 ≤ w :=
        roundAllocations_nonneg hL hx
      have h1 := @minDispMap_sum_le order security accounts constraints
        (roundAllocations (resolveSolver order accounts opt).allocations
          security.minDenomination order.quantity) hr0
      have h2 := roundAllocations_sum_le hL hxsum
      rw [minDispAllocate_of_valid hv]
      exact (filter_rows_sum accounts _ security order hnodup hsub
        hacc).trans_le (h1.trans h2)
    · rw [minDispAllocate_of_invalid hv] at herr
      simp [errorResult] at herr
      exact absurd herr hv

/-! ## Claim C9 -/

/-- C9: in every AllocationResult returned by any of the three
policies, error or not, the summary is consistent with the allocations
list — total_allocated equals the sum of allocated_quantity over the
rows, unallocated equals order.quantity minus total_allocated, and
accounts_allocated equals the number of rows — for dict-shaped inputs
(distinct account ids, distinct weight keys). -/
theorem C9_summary_consistency (order : Order) (security : Security)
    (accounts : List Account) (baseMetric : String)
    (weights : List (String × ℚ)) (constraints : AllocationConstraints)
    (opt : OptimizationResult)
    (hacc : (accounts.map Account.accountId).Nodup)
    (hw : (weights.map Prod.fst).Nodup) :
    summaryConsistent order
      (proRataAllocate order security accounts baseMetric constraints) ∧
    summaryConsistent order
      (customWeightsAllocate order security accounts weights constraints) ∧
    summaryConsistent order
      (minDispAllocate order security accounts constraints opt) := by
  refine ⟨?_, ?_, ?_⟩
  · by_cases hv : validateInputs order security accounts constraints = []
    · rw [proRataAllocate_of_valid hv]
      obtain ⟨ht, hnodup, hsub⟩ :=
        @proRataAllocations_bridge order security accounts baseMetric
          constraints hacc
      exact ⟨ht.trans (filter_rows_sum accounts _ security order hnodup
        hsub hacc).symm, rfl, rfl⟩
    · rw [proRataAllocate_of_invalid hv]
      exact ⟨rfl, (sub_zero _).symm, rfl⟩
  · by_cases hv : validateInputs order security accounts constraints = []
    · by_cases hwv : validateWeights weights = []
      · rw [customWeightsAllocate_of_valid hv hwv]
        obtain ⟨ht, hnodup, hlookup⟩ :=
          @customAllocations_bridge order security accounts weights
            constraints hw
        exact ⟨ht.trans (customRows_sum hlookup).symm, rfl, rfl⟩
      · rw [customWeightsAllocate_of_invalid_weights hv hwv]
        exact ⟨rfl, (sub_zero _).symm, rfl⟩
    · rw [customWeightsAllocate_of_invalid hv]
      exact ⟨rfl, (sub_zero _).symm, rfl⟩
  · by_cases hv : validateInputs order security accounts constraints = []
    · rw [minDispAllocate_of_valid hv]
      obtain ⟨hnodup, hsub⟩ :=
        @minDispMap_bridge order security accounts constraints
          (roundAllocations (resolveSolver order accounts opt).allocations
            security.minDenomination order.quantity)
      exact ⟨(filter_rows_sum accounts _ security order hnodup
        hsub hacc).symm, rfl, rfl⟩
    · rw [minDispAllocate_of_invalid hv]
      exact ⟨rfl, (sub_zero _).symm, rfl⟩

section ConcreteRuns

set_option allowUnsafeReducibility true
attribute [local semireducible] Rat.add Rat.mul Rat.inv Rat.sub Rat.div

/-- A concrete order for the C5 witness. -/
def c5Order : Order := ⟨"SEC1", "BUY", 1000, none⟩

/-- A concrete security for the C5 witness. -/
def c5Sec : Security := ⟨"SEC1", 1, 0, 0, 0, 1000⟩

/-- Witness for C5: an empty account list yields a `NO_ACCOUNTS` error
result under every policy, with empty allocations, zero total and full
unallocated quantity. -/
theorem C5_errors_imply_empty_result_witness :
    (proRataAllocate c5Order c5Sec [] "NAV" {}).errors ≠ [] ∧
    (proRataAllocate c5Order c5Sec [] "NAV" {}).allocations = [] ∧
    (proRataAllocate c5Order c5Sec [] "NAV" {}).summary.totalAllocated = 0 ∧
    (proRataAllocate c5Order c5Sec [] "NAV" {}).summary.unallocated = c5Order.quantity ∧
    (customWeightsAllocate c5Order c5Sec [] [("A", 1)] {}).allocations = [] ∧
    (minDispAllocate c5Order c5Sec [] {} ⟨[], true⟩).summary.totalAllocated = 0 := by
  have h := C5_errors_imply_empty_result c5Order c5Sec [] "NAV" [("A", 1)] {}
    ⟨[], true⟩
  refine ⟨by decide, (h.1 (by decide)).1, (h.1 (by decide)).2.1,
    (h.1 (by decide)).2.2, (h.2.1 (by decide)).1, (h.2.2 (by decide)).2.1⟩

/-- A concrete SELL order for the C10 witness. -/
def c10Order : Order := ⟨"SEC1", "SELL", 2000, none⟩

/-- A concrete security for the C10 witness. -/
def c10Sec : Security := ⟨"SEC1", 1, 0, 0, 0, 1000⟩

/-- A concrete account holding a position for the C10 witness. -/
def c10Acc : Account := ⟨"A", "Acct A", 100, 777, 5000, 0, 0, 0, 0, none⟩

/-- Witness for C10: the pro-rata SELL result at a concrete input
allocates the full 2000 to the account, and that entry carries
`cash_used = 0` and unchanged cash. -/
theorem C10_sell_cash_model_witness :
    c10Order.side = "SELL" ∧
    (proRataAllocate c10Order c10Sec [c10Acc] "NAV" {}).allocations =
      [createAccountAllocation c10Acc 2000 c10Sec c10Order] ∧
    (createAccountAllocation c10Acc 2000 c10Sec c10Order).cashUsed = 0 ∧
    (createAccountAllocation c10Acc 2000 c10Sec c10Order).postTradeCash =
      (createAccountAllocation c10Acc 2000 c10Sec c10Order).availableCash := by
  have heq : (proRataAllocate c10Order c10Sec [c10Acc] "NAV" {}).allocations =
      [createAccountAllocation c10Acc 2000 c10Sec c10Order] := by decide
  have h := C10_sell_cash_model c10Order c10Sec [c10Acc] "NAV" []
    {} ⟨[], true⟩ rfl
  exact ⟨rfl, heq, h.1 (createAccountAllocation c10Acc 2000 c10Sec c10Order)
    (by rw [heq]; exact List.mem_singleton.mpr rfl)⟩

/-- A concrete order for the C4 run: BUY 2000 with a trivially failing
solver outcome. -/
def c4Order : Order := ⟨"SEC1", "BUY", 2000, none⟩

/-- A concrete security for the C4 run. -/
def c4Sec : Security := ⟨"SEC1", 1, 0, 0, 0, 1000⟩

/-- A concrete account for the C4 run. -/
def c4Acc : Account := ⟨"A", "Acct A", 100, 1000000000, 0, 0, 0, 0, 0, none⟩

/-- Counterexample to C4 as stated: on a failing solver outcome the
metadata records `optimization_success = true`, not `false` — the
fallback's success flag overwrites the failure. -/
theorem C4_counterexample :
    (⟨[0], false⟩ : OptimizationResult).success = false ∧
    (minDispAllocate c4Order c4Sec [c4Acc] {} ⟨[0], false⟩).optimizationSuccess ≠
      some false ∧
    (minDispAllocate c4Order c4Sec [c4Acc] {} ⟨[0], false⟩).optimizationSuccess =
      some true := by
  decide

/-- Witness for the amended C4 at a concrete input: the failing-solver
result coincides with the fallback-vector result and records
`optimization_success = true`. -/
theorem C4_fallback_amended_witness :
    (⟨[0], false⟩ : OptimizationResult).success = false ∧
    minDispAllocate c4Order c4Sec [c4Acc] {} ⟨[0], false⟩ =
      minDispAllocate c4Order c4Sec [c4Acc] {}
        (fallbackProrata c4Order [c4Acc]) ∧
    (minDispAllocate c4Order c4Sec [c4Acc] {} ⟨[0], false⟩).optimizationSuccess =
      some true := by
  have h := C4_fallback_amended c4Order c4Sec [c4Acc] {} ⟨[0], false⟩ rfl
  exact ⟨rfl, h.1, h.2 (by decide)⟩

/-- A concrete order for the C7 runs. -/
def c7Order : Order := ⟨"SEC1", "BUY", 1000000, none⟩

/-- A concrete security for the C7 runs. -/
def c7Sec : Security := ⟨"SEC1", 1, 0, 0, 0, 1000⟩

/-- A concrete account for the C7 runs. -/
def c7Acc : Account := ⟨"A", "Acct A", 100, 1000000000, 0, 0, 0, 0, 0, none⟩

/-- Witness for C7 at concrete inputs: weights summing to 0.9 give
exactly `INVALID_WEIGHT_SUM`; empty weights give `NO_WEIGHTS`; a
negative weight gives `NEGATIVE_WEIGHT`; a weight above one gives
`WEIGHT_EXCEEDS_ONE` — all with empty allocations. -/
theorem C7_weight_validation_witness :
    (customWeightsAllocate c7Order c7Sec [c7Acc] [("A", 9/10)] {}).errors =
        [⟨.invalidWeightSum⟩] ∧
    (customWeightsAllocate c7Order c7Sec [c7Acc] [("A", 9/10)] {}).allocations = [] ∧
    (customWeightsAllocate c7Order c7Sec [c7Acc] [] {}).errors = [⟨.noWeights⟩] ∧
    (⟨.negativeWeight⟩ : AllocationError) ∈
      (customWeightsAllocate c7Order c7Sec [c7Acc]
        [("A", -(1/2)), ("B", 3/2)] {}).errors ∧
    (⟨.weightExceedsOne⟩ : AllocationError) ∈
      (customWeightsAllocate c7Order c7Sec [c7Acc]
        [("A", -(1/2)), ("B", 3/2)] {}).errors ∧
    (customWeightsAllocate c7Order c7Sec [c7Acc]
      [("A", -(1/2)), ("B", 3/2)] {}).allocations = [] := by
  have h1 := C7_weight_validation c7Order c7Sec [c7Acc] [("A", 9/10)] {} (by decide)
  have h2 := C7_weight_validation c7Order c7Sec [c7Acc] [] {} (by decide)
  have h3 := C7_weight_validation c7Order c7Sec [c7Acc]
    [("A", -(1/2)), ("B", 3/2)] {} (by decide)
  have ha := h1.1 (by refine ⟨by decide, ?_, by decide⟩; decide)
  have hb := h2.2.1 rfl
  have hc := h3.2.2.1 ⟨("A", -(1/2)), by decide, by decide⟩
  have hd := h3.2.2.2 ⟨("B", 3/2), by decide, by decide⟩
  exact ⟨ha.1, ha.2, hb.1, hc.1, hd.1, hc.2⟩

/-- A concrete BUY order carrying a price override of 1 for the C2 run. -/
def c2Order : Order := ⟨"SEC1", "BUY", 2000, some 1⟩

/-- A concrete security priced 0.1 (below the override) for the C2 run. -/
def c2Sec : Security := ⟨"SEC1", 1/10, 0, 0, 0, 1000⟩

/-- A concrete account with 1500 cash for the C2 run. -/
def c2Acc : Account := ⟨"A", "Acct A", 100, 1500, 0, 0, 0, 0, 0, none⟩

/-- C2 at the failing input: a BUY with `respect_cash` and a price
override ends with 2000 allocated, whose cost at the effective price
(2000 × 1) exceeds the account's 1500 cash — `_distribute_remainder`
checked the remainder lot against the security price (0.1) instead of
the override. -/
theorem C2_price_override_cash_violation :
    ({} : AllocationConstraints).respectCash = true ∧
    c2Order.side = "BUY" ∧
    (proRataAllocate c2Order c2Sec [c2Acc] "NAV" {}).errors = [] ∧
    (proRataAllocate c2Order c2Sec [c2Acc] "NAV" {}).allocations =
      [createAccountAllocation c2Acc 2000 c2Sec c2Order] ∧
    2000 * effectivePrice c2Order c2Sec > c2Acc.availableCash := by
  decide

/-- A concrete SELL order for the C3 run. -/
def c3Order : Order := ⟨"SEC1", "SELL", 2000, none⟩

/-- A concrete security for the C3 run. -/
def c3Sec : Security := ⟨"SEC1", 1, 0, 0, 0, 1000⟩

/-- A concrete account holding a position of only 1000 for the C3 run. -/
def c3Acc : Account := ⟨"A", "Acct A", 100, 1000000, 1000, 0, 0, 0, 0, none⟩

/-- C3 at the failing input: a SELL ends with 2000 allocated against a
current position of 1000 — `_distribute_remainder` checks only cash,
never the position, when handing out remainder lots. -/
theorem C3_sell_position_violation :
    c3Order.side = "SELL" ∧
    (proRataAllocate c3Order c3Sec [c3Acc] "NAV" {}).errors = [] ∧
    (proRataAllocate c3Order c3Sec [c3Acc] "NAV" {}).allocations =
      [createAccountAllocation c3Acc 2000 c3Sec c3Order] ∧
    (2000 : ℚ) > c3Acc.currentPosition := by
  decide

/-- A concrete SELL order for the C8 runs. -/
def c8Order : Order := ⟨"SEC1", "SELL", 2000, none⟩

/-- A concrete security for the C8 runs. -/
def c8Sec : Security := ⟨"SEC1", 1, 0, 0, 0, 1000⟩

/-- A concrete cashless, positionless account for the C8 runs. -/
def c8Acc : Account := ⟨"A", "Acct A", 100, 0, 0, 0, 0, 0, 0, none⟩

/-- Counterexample to C8 as stated: a SELL order also emits the
`INSUFFICIENT_CASH` warning (the source never consults the side). -/
theorem C8_counterexample :
    c8Order.side = "SELL" ∧
    (proRataAllocate c8Order c8Sec [c8Acc] "NAV" {}).warnings =
      [⟨.insufficientCash, some "A"⟩] := by
  decide

/-- A second account, with ample NAV, used by the C8 witness so the
order itself succeeds elsewhere. -/
def c8AccB : Account := ⟨"B", "Acct B", 1000000, 1000000000, 1000000, 0, 0, 0, 0, none⟩

/-- Witness for the amended C8 at a concrete input (a BUY this time):
the poor account ends unallocated and receives the warning. -/
theorem C8_insufficient_cash_amended_witness :
    (⟨.insufficientCash, some "A"⟩ : AllocationWarning) ∈
      (proRataAllocate ⟨"SEC1", "BUY", 2000, none⟩ c8Sec [c8Acc, c8AccB]
        "NAV" {}).warnings := by
  have h := C8_insufficient_cash_amended ⟨"SEC1", "BUY", 2000, none⟩ c8Sec
    [c8Acc, c8AccB] "NAV" {} c8Acc (by decide)
    (List.mem_cons_self _ _) (by decide) rfl (by decide)
  exact h

/-- A concrete BUY order for the C1 runs: 10,000,000 at price 1. -/
def c1Order : Order := ⟨"SEC1", "BUY", 10000000, none⟩

/-- A concrete security for the C1 runs. -/
def c1Sec : Security := ⟨"SEC1", 1, 0, 0, 0, 1000⟩

/-- Deep-pocketed account A for the C1 counterexample. -/
def c1AccA : Account := ⟨"A", "Acct A", 100, 1000000000, 0, 0, 0, 0, 0, none⟩

/-- Deep-pocketed account B for the C1 counterexample. -/
def c1AccB : Account := ⟨"B", "Acct B", 100, 1000000000, 0, 0, 0, 0, 0, none⟩

/-- Counterexample to C1: weights of 0.5005 each pass the validator's
0.001 tolerance, and the custom-weights engine allocates 10,010,000
against an order of 10,000,000 with no errors. -/
theorem C1_counterexample :
    (customWeightsAllocate c1Order c1Sec [c1AccA, c1AccB]
      [("A", 1001/2000), ("B", 1001/2000)] {}).errors = [] ∧
    c1Order.quantity <
      ((customWeightsAllocate c1Order c1Sec [c1AccA, c1AccB]
        [("A", 1001/2000), ("B", 1001/2000)] {}).allocations.map
        AccountAllocationResult.allocatedQuantity).sum := by
  decide

/-- Witness for the amended C1 at a one-account input whose weight sums
to exactly 1 and whose solver outcome is the full order quantity. -/
theorem C1_sum_amended_witness :
    ((0 : ℚ) < c1Sec.minDenomination ∧
      alistSum [("A", (1 : ℚ))] ≤ 1 ∧
      (resolveSolver c1Order [c1AccA] ⟨[10000000], true⟩).allocations.sum ≤
        c1Order.quantity) ∧
    (((proRataAllocate c1Order c1Sec [c1AccA] "NAV" {}).errors = [] →
      ((proRataAllocate c1Order c1Sec [c1AccA] "NAV" {}).allocations.map
        AccountAllocationResult.allocatedQuantity).sum ≤ c1Order.quantity) ∧
    ((customWeightsAllocate c1Order c1Sec [c1AccA] [("A", 1)]
        {}).errors = [] →
      ((customWeightsAllocate c1Order c1Sec [c1AccA] [("A", 1)]
        {}).allocations.map
        AccountAllocationResult.allocatedQuantity).sum ≤ c1Order.quantity) ∧
    ((minDispAllocate c1Order c1Sec [c1AccA] {}
        ⟨[10000000], true⟩).errors = [] →
      ((minDispAllocate c1Order c1Sec [c1AccA] {}
        ⟨[10000000], true⟩).allocations.map
        AccountAllocationResult.allocatedQuantity).sum ≤ c1Order.quantity)) :=
  ⟨⟨by decide, by decide, by decide⟩,
   C1_sum_amended c1Order c1Sec [c1AccA] "NAV" [("A", 1)] {}
     ⟨[10000000], true⟩ (by decide) (by decide) (by decide) (by decide)
     (by intro mc h; cases h) (by decide) (by decide) (by decide)
     (by decide)⟩

/-- Constraints for the C6 counterexample: 1% concentration cap,
minimum allocation 2000, cash not enforced. -/
def c6Cons : AllocationConstraints :=
  { respectCash := false, minAllocation := 2000, complianceCheck := true,
    roundToDenomination := true, maxConcentration := some (1/100) }

/-- A concrete BUY order for the C6 runs. -/
def c6Order : Order := ⟨"SEC1", "BUY", 5000, none⟩

/-- A concrete security for the C6 runs. -/
def c6Sec : Security := ⟨"SEC1", 1, 0, 0, 0, 1000⟩

/-- The C6 counterexample account: NAV 150000, so the 1% cap rounds the
allocation down to 1000 < min_allocation. -/
def c6Acc : Account := ⟨"A", "Acct A", 150000, 0, 0, 0, 0, 0, 0, none⟩

/-- Counterexample to C6: under a 1% concentration cap the pro-rata
engine emits an error-free result whose single allocation is 1000 —
nonzero yet below min_allocation = 2000. -/
theorem C6_counterexample :
    (proRataAllocate c6Order c6Sec [c6Acc] "NAV" c6Cons).errors = [] ∧
    ∃ r ∈ (proRataAllocate c6Order c6Sec [c6Acc] "NAV" c6Cons).allocations,
      r.allocatedQuantity ≠ 0 ∧
        r.allocatedQuantity < c6Cons.minAllocation := by
  decide

/-- The C6 witness account: enough cash to take the full order. -/
def c6AccB : Account := ⟨"B", "Acct B", 150000, 10000000, 0, 0, 0, 0, 0, none⟩

/-- Witness for the amended C6 at a one-account BUY input under default
constraints. -/
theorem C6_lot_minimum_amended_witness :
    ((0 : ℚ) ≤ c6Sec.minDenomination ∧
      ({} : AllocationConstraints).roundToDenomination = true ∧
      c6Order.side = "BUY" ∧
      ({} : AllocationConstraints).maxConcentration = none) ∧
    ((∀ r ∈ (proRataAllocate c6Order c6Sec [c6AccB] "NAV" {}).allocations,
      r.allocatedQuantity = 0 ∨
        (isLotMultiple r.allocatedQuantity c6Sec.minDenomination ∧
          ({} : AllocationConstraints).minAllocation ≤ r.allocatedQuantity)) ∧
    (∀ r ∈ (customWeightsAllocate c6Order c6Sec [c6AccB] [("B", 1)]
        {}).allocations,
      r.allocatedQuantity = 0 ∨
        (isLotMultiple r.allocatedQuantity c6Sec.minDenomination ∧
          ({} : AllocationConstraints).minAllocation ≤ r.allocatedQuantity)) ∧
    (∀ r ∈ (minDispAllocate c6Order c6Sec [c6AccB] {}
        ⟨[5000], true⟩).allocations,
      r.allocatedQuantity = 0 ∨
        (isLotMultiple r.allocatedQuantity c6Sec.minDenomination ∧
          ({} : AllocationConstraints).minAllocation ≤
            r.allocatedQuantity))) :=
  ⟨⟨by decide, rfl, rfl, rfl⟩,
   C6_lot_minimum_amended c6Order c6Sec [c6AccB] "NAV" [("B", 1)] {}
     ⟨[5000], true⟩ (by decide) rfl rfl rfl⟩

/-- A concrete order for the C9 witness. -/
def c9Order : Order := ⟨"SEC1", "BUY", 10000, none⟩

/-- A concrete security for the C9 witness. -/
def c9Sec : Security := ⟨"SEC1", 1, 0, 0, 0, 1000⟩

/-- A concrete account for the C9 witness. -/
def c9Acc : Account := ⟨"A", "Acct A", 100, 1000000, 0, 0, 0, 0, 0, none⟩

/-- Witness for C9 at a one-account, one-weight input. -/
theorem C9_summary_consistency_witness :
    (([c9Acc].map Account.accountId).Nodup ∧
      (([("A", (1 : ℚ))].map Prod.fst).Nodup)) ∧
    (summaryConsistent c9Order
      (proRataAllocate c9Order c9Sec [c9Acc] "NAV" {}) ∧
    summaryConsistent c9Order
      (customWeightsAllocate c9Order c9Sec [c9Acc] [("A", 1)] {}) ∧
    summaryConsistent c9Order
      (minDispAllocate c9Order c9Sec [c9Acc] {} ⟨[10000], true⟩)) :=
  ⟨⟨by decide, by decide⟩,
   C9_summary_consistency c9Order c9Sec [c9Acc] "NAV" [("A", 1)] {}
     ⟨[10000], true⟩ (by decide) (by decide)⟩

end ConcreteRuns

end AllocEngine
